import Mathlib

/-!
Verification development for the OpenBazaar Kademlia routing table
(source files dht/constants.py, dht/contact.py, dht/util.py, dht/kbucket.py,
dht/routingtable.py).

Modelling conventions.
* Identifiers (guids) are hex strings in the source.  Inside the table we
  model a guid by its numeric value: the canonical 40-hex-char form used by
  the table and the value below 2 ^ 160 are in bijection (the string layer
  num_to_guid / guid_to_num is modelled separately on actual strings, and
  the round trip between the two layers is proved below).  Contact equality
  in the source compares guids only, so contact removal is modelled by
  removing the first entry with the same numeric guid.
* Wall-clock reads (int(time.time())) are modelled by an explicit `now`
  argument to the operations that construct buckets or touch timestamps.
* The random source of random.randrange is modelled by an explicit choice
  function argument.
* Python exceptions are modelled by Option / Except error values; where the
  source mutates state before raising, the operation returns the mutated
  state next to the raised error.
-/

namespace OB

/-- dht/constants.py: BIT_NODE_ID_LEN = 160. -/
def BIT_NODE_ID_LEN : Nat := 160

/-- dht/constants.py: HEX_NODE_ID_LEN = BIT_NODE_ID_LEN // 4. -/
def HEX_NODE_ID_LEN : Nat := BIT_NODE_ID_LEN / 4

/-- dht/constants.py: K = 24 (bucket capacity). -/
def K : Nat := 24

/-- dht/constants.py: CACHE_K = 32 (replacement-cache capacity). -/
def CACHE_K : Nat := 32

/-- dht/constants.py: REFRESH_TIMEOUT = 60 * 60 * 1000. -/
def REFRESH_TIMEOUT : Nat := 60 * 60 * 1000

/-- The identifier space size 2 ^ BIT_NODE_ID_LEN used by
dht/routingtable.py when creating the initial bucket. -/
def ID_SPACE : Nat := 2 ^ BIT_NODE_ID_LEN

/-- dht/contact.py: a Contact has ip, port and guid; equality and hashing
are guid-only (here the guid is the numeric value of the canonical hex
string). -/
structure Contact where
  ip : String
  port : Nat
  guid : Nat
deriving DecidableEq

/-- dht/util.py partition: split a sequence into the elements passing the
predicate (first list) and the rest (second list), preserving order. -/
def py_partition {α : Type} (predicate : α → Bool) : List α → List α × List α
  | [] => ([], [])
  | x :: xs =>
    let p := py_partition predicate xs
    if predicate x then (x :: p.1, p.2) else (p.1, x :: p.2)

/-- Python list.remove(contact) / deque.remove(contact) with the guid-only
Contact equality: drop the first entry carrying the given guid (no-op when
absent, mirroring the except ValueError: pass pattern). -/
def remove_first_guid (g : Nat) : List Contact → List Contact
  | [] => []
  | c :: rest => if c.guid = g then rest else c :: remove_first_guid g rest

/-- dht/kbucket.py: FullBucketError, raised when adding a contact to a full
KBucket. -/
inductive FullBucketError
  | full
deriving DecidableEq

/-- dht/kbucket.py KBucket: half-open range [range_min, range_max), a
last_accessed timestamp and the LRU-ordered contact list (freshest at the
tail). -/
structure KBucket where
  last_accessed : Nat
  range_min : Nat
  range_max : Nat
  contacts : List Contact
deriving DecidableEq

/-- KBucket.__init__: fresh bucket for the given range, last_accessed set to
the current time, empty contact list. -/
def KBucket.init (now range_min range_max : Nat) : KBucket :=
  ⟨now, range_min, range_max, []⟩

/-- KBucket.add_contact: remove any prior occurrence of the same contact,
then append if fewer than K contacts remain, else raise FullBucketError.
The first component is the bucket state after the call (the removal is kept
even on the error path, as the Python list was already mutated). -/
def KBucket.add_contact (b : KBucket) (c : Contact) :
    KBucket × Option FullBucketError :=
  let cs := remove_first_guid c.guid b.contacts
  if cs.length < K then
    ({ b with contacts := cs ++ [c] }, none)
  else
    ({ b with contacts := cs }, some .full)

/-- KBucket.get_contact: first stored contact with the given guid, if any. -/
def KBucket.get_contact (b : KBucket) (g : Nat) : Option Contact :=
  b.contacts.find? (fun c => c.guid == g)

/-- The loop of KBucket.get_contacts in the excluded_guid branch: walk the
(already reversed) contact list, skip the excluded guid, append and stop as
soon as the requested amount is collected. -/
def collect_excluding (ex : Nat) : List Contact → Nat → List Contact
  | [], _ => []
  | c :: rest, need =>
    if c.guid = ex then collect_excluding ex rest need
    else if need ≤ 1 then [c]
    else c :: collect_excluding ex rest (need - 1)

/-- KBucket.get_contacts(count, excluded_guid): empty on an empty bucket or
count = 0; a negative count means all contacts; without an exclusion the
last `count` contacts are returned by slicing, with an exclusion the list is
walked from the tail. -/
def KBucket.get_contacts (b : KBucket) (count : Int)
    (excluded_guid : Option Nat) : List Contact :=
  let current_len := b.contacts.length
  if current_len = 0 ∨ count = 0 then []
  else
    let cnt : Nat := if count < 0 then current_len else min count.toNat current_len
    match excluded_guid with
    | none => b.contacts.drop (current_len - cnt)
    | some ex => collect_excluding ex b.contacts.reverse cnt

/-- KBucket.remove_contact: drop the first entry equal (by guid) to the
given contact; no-op when absent. -/
def KBucket.remove_contact (b : KBucket) (c : Contact) : KBucket :=
  { b with contacts := remove_first_guid c.guid b.contacts }

/-- KBucket.remove_guid: keep exactly the contacts whose guid differs. -/
def KBucket.remove_guid (b : KBucket) (g : Nat) : KBucket :=
  { b with contacts := b.contacts.filter (fun c => c.guid != g) }

/-- KBucket.guid_in_range: range_min <= guid_to_num(guid) < range_max. -/
def KBucket.guid_in_range (b : KBucket) (g : Nat) : Bool :=
  decide (b.range_min ≤ g) && decide (g < b.range_max)

/-- KBucket.contact_in_range: range membership of the contact's guid. -/
def KBucket.contact_in_range (b : KBucket) (c : Contact) : Bool :=
  b.guid_in_range c.guid

/-- KBucket.touch: set last_accessed to the current time. -/
def KBucket.touch (b : KBucket) (now : Nat) : KBucket :=
  { b with last_accessed := now }

/-- KBucket.split_kbucket: halve the range at
half_point = range_min + (range_max - range_min) // 2; the assert that no
empty range is created is modelled by returning none when it fails (the
Python assert fires before any mutation).  A new bucket (of the same class,
created with the current time) takes [half_point, range_max); this bucket
keeps [range_min, half_point); the contacts are partitioned with the
narrowed bucket's contact_in_range as the predicate. -/
def KBucket.split_kbucket (b : KBucket) (now : Nat) :
    Option (KBucket × KBucket) :=
  let cur_range_size := b.range_max - b.range_min
  let half_point := b.range_min + cur_range_size / 2
  if b.range_min < half_point ∧ half_point < b.range_max then
    let low0 : KBucket := { b with range_max := half_point }
    let p := py_partition low0.contact_in_range low0.contacts
    some ({ low0 with contacts := p.1 },
          { KBucket.init now half_point b.range_max with contacts := p.2 })
  else none

/-- dht/kbucket.py CachingKBucket: a KBucket plus a replacement cache
(deque, newest at the tail). -/
structure CachingKBucket extends KBucket where
  replacement_cache : List Contact
deriving DecidableEq

/-- CachingKBucket.__init__: fresh bucket with an empty cache. -/
def CachingKBucket.init (now range_min range_max : Nat) : CachingKBucket :=
  ⟨KBucket.init now range_min range_max, []⟩

/-- CachingKBucket inherits KBucket.add_contact. -/
def CachingKBucket.add_contact (b : CachingKBucket) (c : Contact) :
    CachingKBucket × Option FullBucketError :=
  let r := b.toKBucket.add_contact c
  ({ b with toKBucket := r.1 }, r.2)

/-- CachingKBucket.cache_contact: evict any cached entry with the same
guid, append to the tail, and pop the head when the cache exceeds
CACHE_K. -/
def CachingKBucket.cache_contact (b : CachingKBucket) (c : Contact) :
    CachingKBucket :=
  let q := remove_first_guid c.guid b.replacement_cache ++ [c]
  { b with replacement_cache := if CACHE_K < q.length then q.tail else q }

/-- CachingKBucket.get_cached_contacts: all cached contacts, oldest
first. -/
def CachingKBucket.get_cached_contacts (b : CachingKBucket) : List Contact :=
  b.replacement_cache

/-- One iteration of the fill_from_cache loop: pop the newest cached
contact (deque.pop takes the tail) and add it to the main list.  The add
cannot raise in the iterations fill_from_cache performs, because the move
count never exceeds K minus the current length (lemma fill_loop_spec); the
raised-error component is therefore discarded. -/
def CachingKBucket.fill_step (b : CachingKBucket) : CachingKBucket :=
  match b.replacement_cache.getLast? with
  | none => b
  | some c =>
    let popped := { b with replacement_cache := b.replacement_cache.dropLast }
    (popped.add_contact c).1

/-- The counted loop of CachingKBucket.fill_from_cache. -/
def CachingKBucket.fill_loop : Nat → CachingKBucket → CachingKBucket
  | 0, b => b
  | n + 1, b => fill_loop n b.fill_step

/-- CachingKBucket.fill_from_cache: move
min(len(cache), K - len(contacts)) contacts from the cache tail into the
main list. -/
def CachingKBucket.fill_from_cache (b : CachingKBucket) : CachingKBucket :=
  CachingKBucket.fill_loop
    (min b.replacement_cache.length (K - b.contacts.length)) b

/-- CachingKBucket.remove_contact: base removal, then refill from the
cache. -/
def CachingKBucket.remove_contact (b : CachingKBucket) (c : Contact) :
    CachingKBucket :=
  CachingKBucket.fill_from_cache
    { b with toKBucket := b.toKBucket.remove_contact c }

/-- CachingKBucket.remove_guid: base removal, then refill from the
cache. -/
def CachingKBucket.remove_guid (b : CachingKBucket) (g : Nat) :
    CachingKBucket :=
  CachingKBucket.fill_from_cache
    { b with toKBucket := b.toKBucket.remove_guid g }

/-- CachingKBucket.split_kbucket: base split, then partition the cache with
the narrowed bucket's contact_in_range (preserving order), and refill both
buckets from their caches. -/
def CachingKBucket.split_kbucket (b : CachingKBucket) (now : Nat) :
    Option (CachingKBucket × CachingKBucket) :=
  match b.toKBucket.split_kbucket now with
  | none => none
  | some (lowK, newK) =>
    let p := py_partition lowK.contact_in_range b.replacement_cache
    some (CachingKBucket.fill_from_cache ⟨lowK, p.1⟩,
          CachingKBucket.fill_from_cache ⟨newK, p.2⟩)

/-- Errors surfacing from RoutingTable operations: BadGUIDError, a
FullBucketError escaping the table, an AssertionError from split_kbucket,
and exhaustion of the recursion-depth fuel of the add_contact model. -/
inductive RTError
  | badGUID
  | bucketFull
  | assertFail
  | outOfFuel
deriving DecidableEq

/-- dht/routingtable.py RoutingTable: the node's own guid and the ordered
bucket list (the market_id only feeds the logger and is omitted). -/
structure RoutingTable where
  own_guid : Nat
  buckets : List CachingKBucket
deriving DecidableEq

/-- RoutingTable.__init__: a single CachingKBucket covering
[0, 2 ^ BIT_NODE_ID_LEN). -/
def RoutingTable.init (own_guid now : Nat) : RoutingTable :=
  ⟨own_guid, [CachingKBucket.init now 0 ID_SPACE]⟩

/-- The binary-search loop of RoutingTable._get_kbucket_index; none models
the BadGUIDError raised when the loop exits without finding a responsible
bucket (or an index ever fell outside the list). -/
def bisect_buckets (bs : List CachingKBucket) (n : Nat) :
    Nat → Nat → Option Nat
  | low, high =>
    if h : low < high then
      let mid := low + (high - low) / 2
      match bs[mid]? with
      | none => none
      | some b =>
        if n < b.range_min then bisect_buckets bs n low mid
        else if b.range_max ≤ n then bisect_buckets bs n (mid + 1) high
        else some mid
    else none
termination_by low high => high - low
decreasing_by
  · omega
  · omega

/-- RoutingTable._get_kbucket_index: binary search over the whole bucket
list for the numeric guid. -/
def RoutingTable.get_kbucket_index (rt : RoutingTable) (n : Nat) :
    Option Nat :=
  bisect_buckets rt.buckets n 0 rt.buckets.length

/-- RoutingTable.get_contact: route to the responsible bucket and search
it; read-only. -/
def RoutingTable.get_contact (rt : RoutingTable) (g : Nat) :
    Except RTError (Option Contact) :=
  match rt.get_kbucket_index g with
  | none => .error .badGUID
  | some i =>
    match rt.buckets[i]? with
    | none => .error .badGUID
    | some b => .ok (b.get_contact g)

/-- RoutingTable.remove_contact: route to the responsible bucket and
delegate (the caching removal refills from the cache). -/
def RoutingTable.remove_contact (rt : RoutingTable) (c : Contact) :
    Except RTError RoutingTable :=
  match rt.get_kbucket_index c.guid with
  | none => .error .badGUID
  | some i =>
    match rt.buckets[i]? with
    | none => .error .badGUID
    | some b => .ok { rt with buckets := rt.buckets.set i (b.remove_contact c) }

/-- RoutingTable.remove_guid: route to the responsible bucket and
delegate. -/
def RoutingTable.remove_guid (rt : RoutingTable) (g : Nat) :
    Except RTError RoutingTable :=
  match rt.get_kbucket_index g with
  | none => .error .badGUID
  | some i =>
    match rt.buckets[i]? with
    | none => .error .badGUID
    | some b => .ok { rt with buckets := rt.buckets.set i (b.remove_guid g) }

/-- Python list.insert: insert before the given index, appending when the
index is past the end. -/
def py_insert {α : Type} : Nat → α → List α → List α
  | 0, x, l => x :: l
  | _ + 1, x, [] => [x]
  | n + 1, x, y :: l => y :: py_insert n x l

/-- RoutingTable.add_contact, with the recursion depth made explicit as
fuel (the recursion of the source is bounded because every recursive call
follows a range-halving split; see add_contact_terminates).  The result is
the table state after the call together with the exception raised, if any:
ignore a self-add; find the responsible bucket (BadGUIDError when the
search fails); try the bucket add; on FullBucketError either split the
bucket, insert the new bucket right after it and retry, or cache the
contact when the node's own guid is outside the bucket's range. -/
def RoutingTable.add_contact_fuel (now : Nat) :
    Nat → RoutingTable → Contact → RoutingTable × Option RTError
  | 0, rt, _ => (rt, some .outOfFuel)
  | fuel + 1, rt, c =>
    if c.guid = rt.own_guid then (rt, none)
    else
      match rt.get_kbucket_index c.guid with
      | none => (rt, some .badGUID)
      | some i =>
        match rt.buckets[i]? with
        | none => (rt, some .badGUID)
        | some b =>
          match b.add_contact c with
          | (b', none) => ({ rt with buckets := rt.buckets.set i b' }, none)
          | (b', some _) =>
            if b'.guid_in_range rt.own_guid then
              match b'.split_kbucket now with
              | none => (rt, some .assertFail)
              | some (lowB, highB) =>
                RoutingTable.add_contact_fuel now fuel
                  { rt with
                    buckets := py_insert (i + 1) highB (rt.buckets.set i lowB) }
                  c
            else
              ({ rt with buckets := rt.buckets.set i (b'.cache_contact c) },
               none)

/-- Fuel sufficient for any add_contact recursion: each recursive call
halves the responsible bucket's range, which starts at most 2 ^ 160 wide. -/
def ADD_FUEL : Nat := BIT_NODE_ID_LEN + 1

/-- RoutingTable.add_contact at the default fuel. -/
def RoutingTable.add_contact (rt : RoutingTable) (c : Contact) (now : Nat) :
    RoutingTable × Option RTError :=
  RoutingTable.add_contact_fuel now ADD_FUEL rt c

/-- The generator gen_indices_closest_to_furthest of
RoutingTable.find_close_nodes, after the first yield: starting from the
given offset, repeatedly advance the offset and yield idx - offset (when
nonnegative) then idx + offset (when below the list length), stopping after
an iteration that yields nothing. -/
def gen_more (idx len : Nat) (offset : Nat) : List Nat :=
  if h : offset + 1 ≤ idx ∨ idx + (offset + 1) < len then
    (if offset + 1 ≤ idx then [idx - (offset + 1)] else []) ++
      ((if idx + (offset + 1) < len then [idx + (offset + 1)] else []) ++
        gen_more idx len (offset + 1))
  else []
termination_by idx + 1 + len - offset
decreasing_by omega

/-- The full index sequence yielded by gen_indices_closest_to_furthest. -/
def gen_indices (idx len : Nat) : List Nat :=
  idx :: gen_more idx len 0

/-- The accumulation loop of RoutingTable.find_close_nodes: for each
yielded bucket index, extend the accumulator with up to
count - len(accumulated) fresh contacts (excluding the sender guid) and
stop once count is reached. -/
def fcn_loop (rt : RoutingTable) (count : Int) (sender : Option Nat) :
    List Nat → List Contact → List Contact
  | [], acc => acc
  | i :: rest, acc =>
    match rt.buckets[i]? with
    | none => fcn_loop rt count sender rest acc
    | some b =>
      let acc' := acc ++ b.get_contacts (count - acc.length) sender
      if count ≤ (acc'.length : Int) then acc'
      else fcn_loop rt count sender rest acc'

/-- RoutingTable.find_close_nodes: locate the responsible bucket and
accumulate outward. -/
def RoutingTable.find_close_nodes (rt : RoutingTable) (g : Nat)
    (count : Int) (sender : Option Nat) : Except RTError (List Contact) :=
  match rt.get_kbucket_index g with
  | none => .error .badGUID
  | some i0 => .ok (fcn_loop rt count sender (gen_indices i0 rt.buckets.length) [])

/-- Modelled from the spec: KBucket.is_stale is called by
RoutingTable.get_refresh_list but missing from dht/kbucket.py; the spec
defines staleness as now - last_accessed >= REFRESH_TIMEOUT. -/
def CachingKBucket.is_stale (b : CachingKBucket) (now : Nat) : Bool :=
  decide ((REFRESH_TIMEOUT : Int) ≤ (now : Int) - (b.last_accessed : Int))

/-! ### The hex-string identifier layer (dht/util.py) -/

/-- The lowercase hex digit for a value below 16. -/
def hex_digit (d : Nat) : Char :=
  "0123456789abcdef".data.getD d '?'

/-- The hex digits of a nonnegative integer, most significant first, no
leading zeros (the digit sequence produced by the hex() builtin after its
0x marker; hex(0) yields the single digit 0). -/
def to_hex_chars (n : Nat) : List Char :=
  if h : n < 16 then [hex_digit n]
  else to_hex_chars (n / 16) ++ [hex_digit (n % 16)]
termination_by n
decreasing_by exact Nat.div_lt_self (by omega) (by omega)

/-- The hex() builtin: 0x followed by the digits (the trailing long marker
L that Python 2 appends for big values is not produced here; the source
always strips it right away, see num_to_guid and rstrip_L). -/
def py_hex (n : Nat) : List Char :=
  '0' :: 'x' :: to_hex_chars n

/-- Python str.lstrip('0x'): drop leading characters belonging to the set
containing 0 and x. -/
def lstrip_0x : List Char → List Char
  | [] => []
  | c :: rest => if c = '0' ∨ c = 'x' then lstrip_0x rest else c :: rest

/-- Python str.rstrip('L'): drop all trailing L characters. -/
def rstrip_L (l : List Char) : List Char :=
  (l.reverse.dropWhile (fun c => c == 'L')).reverse

/-- Python str.rjust(w, '0'): left-pad with zeros up to width w. -/
def rjust_zero (w : Nat) (l : List Char) : List Char :=
  List.replicate (w - l.length) '0' ++ l

/-- dht/util.py num_to_guid: hex(num).lstrip('0x').rstrip('L') padded on
the left with zeros to HEX_NODE_ID_LEN characters. -/
def num_to_guid (n : Nat) : String :=
  ⟨rjust_zero HEX_NODE_ID_LEN (rstrip_L (lstrip_0x (py_hex n)))⟩

/-- The value of a hex digit character (0-9, a-f, A-F), if any. -/
def hex_val (c : Char) : Option Nat :=
  if '0' ≤ c ∧ c ≤ '9' then some (c.toNat - '0'.toNat)
  else if 'a' ≤ c ∧ c ≤ 'f' then some (c.toNat - 'a'.toNat + 10)
  else if 'A' ≤ c ∧ c ≤ 'F' then some (c.toNat - 'A'.toNat + 10)
  else none

/-- Accumulating base-16 evaluation; none as soon as a non-hex character
appears. -/
def parse_hex_core : Nat → List Char → Option Nat
  | acc, [] => some acc
  | acc, c :: rest =>
    match hex_val c with
    | none => none
    | some d => parse_hex_core (16 * acc + d) rest

/-- The optional 0x / 0X marker accepted by int(s, 16). -/
def drop_0x (l : List Char) : List Char :=
  match l with
  | c0 :: c1 :: rest =>
    if c0 = '0' ∧ (c1 = 'x' ∨ c1 = 'X') then rest else l
  | _ => l

/-- The int(s, 16) builtin on unsigned literals without surrounding
whitespace: accept an optional 0x marker, then at least one hex digit; none
models the ValueError raised otherwise. -/
def py_int_16 (l : List Char) : Option Nat :=
  let l' := drop_0x l
  if l' = [] then none else parse_hex_core 0 l'

/-- dht/util.py guid_to_num: int(guid.rstrip('L'), base=16); none models
the ValueError of an unparsable string.  No length validation and no
BadGUIDError appear in the source. -/
def guid_to_num (s : String) : Option Nat :=
  py_int_16 (rstrip_L s.data)

/-- dht/util.py random_guid_in_range: num_to_guid of
random.randrange(range_min, range_max), the random source being the
injected choice function. -/
def random_guid_in_range (rnd : Nat → Nat → Nat) (range_min range_max : Nat) :
    String :=
  num_to_guid (rnd range_min range_max)

/-- RoutingTable.get_refresh_list: one random guid per selected bucket —
every bucket under force, otherwise the stale ones. -/
def RoutingTable.get_refresh_list (rt : RoutingTable)
    (rnd : Nat → Nat → Nat) (now : Nat) (force : Bool) : List String :=
  let buckets_to_refresh :=
    if force then rt.buckets else rt.buckets.filter (fun b => b.is_stale now)
  buckets_to_refresh.map (fun b => random_guid_in_range rnd b.range_min b.range_max)

/-! ### Lemmas on the hex layer -/

theorem hex_val_hex_digit : ∀ d, d < 16 → hex_val (hex_digit d) = some d := by
  decide

theorem hex_digit_ne : ∀ d, d < 16 →
    hex_digit d ≠ 'L' ∧ hex_digit d ≠ 'x' ∧ hex_digit d ≠ 'X' := by
  decide

theorem parse_hex_core_append (l1 l2 : List Char) : ∀ acc,
    parse_hex_core acc (l1 ++ l2) =
      match parse_hex_core acc l1 with
      | none => none
      | some m => parse_hex_core m l2 := by
  induction l1 with
  | nil => intro acc; rfl
  | cons c rest ih =>
    intro acc
    simp only [List.cons_append, parse_hex_core]
    cases hex_val c with
    | none => rfl
    | some d => exact ih _

theorem to_hex_chars_mem (n : Nat) :
    ∀ c ∈ to_hex_chars n, ∃ d, d < 16 ∧ c = hex_digit d := by
  induction n using Nat.strong_induction_on with
  | _ n ih =>
    rw [to_hex_chars]
    split
    · intro c hc
      rcases List.mem_singleton.mp hc with rfl
      exact ⟨n, by omega, rfl⟩
    · intro c hc
      rcases List.mem_append.mp hc with h | h
      · exact ih (n / 16) (Nat.div_lt_self (by omega) (by omega)) c h
      · rcases List.mem_singleton.mp h with rfl
        exact ⟨n % 16, Nat.mod_lt _ (by omega), rfl⟩

theorem parse_to_hex (n : Nat) : ∀ acc,
    parse_hex_core acc (to_hex_chars n) =
      some (acc * 16 ^ (to_hex_chars n).length + n) := by
  induction n using Nat.strong_induction_on with
  | _ n ih =>
    intro acc
    rw [to_hex_chars]
    split
    · simp [parse_hex_core, hex_val_hex_digit n (by omega)]
      ring
    · rename_i h
      rw [parse_hex_core_append, ih (n / 16) (Nat.div_lt_self (by omega) (by omega)) acc]
      simp only [parse_hex_core, hex_val_hex_digit (n % 16) (Nat.mod_lt _ (by omega))]
      have hlen : (to_hex_chars (n / 16) ++ [hex_digit (n % 16)]).length
          = (to_hex_chars (n / 16)).length + 1 := by simp
      rw [hlen, pow_succ]
      have h16 : 16 * (n / 16) + n % 16 = n := by omega
      have key : ∀ a p q r : Nat, 16 * (a * p + q) + r = a * (p * 16) + (16 * q + r) := by
        intro a p q r; ring
      rw [key, h16]

theorem to_hex_chars_length_le (k : Nat) : ∀ n, n < 16 ^ k → 0 < k →
    (to_hex_chars n).length ≤ k := by
  induction k with
  | zero => intro n _ h; omega
  | succ k ih =>
    intro n hn _
    rw [to_hex_chars]
    split
    · simp
    · rename_i h
      have hk : 0 < k := by
        by_contra hk0
        have : k = 0 := by omega
        subst this
        simp [pow_succ] at hn
        omega
      have hdiv : n / 16 < 16 ^ k := by
        rw [pow_succ] at hn
        exact Nat.div_lt_of_lt_mul (by omega)
      have := ih (n / 16) hdiv hk
      simp
      omega

theorem to_hex_chars_head (n : Nat) (hn : 0 < n) :
    ∃ c rest, to_hex_chars n = c :: rest ∧ c ≠ '0' ∧ c ≠ 'x' ∧ c ≠ 'X' := by
  induction n using Nat.strong_induction_on with
  | _ n ih =>
    rw [to_hex_chars]
    split
    · rename_i h
      have hd : ∀ d, d < 16 → 0 < d →
          hex_digit d ≠ '0' ∧ hex_digit d ≠ 'x' ∧ hex_digit d ≠ 'X' := by decide
      exact ⟨hex_digit n, [], rfl, hd n h hn⟩
    · rename_i h
      rcases ih (n / 16) (Nat.div_lt_self (by omega) (by omega)) (by omega)
        with ⟨c, rest, heq, hc⟩
      exact ⟨c, rest ++ [hex_digit (n % 16)], by rw [heq]; rfl, hc⟩

theorem dropWhile_ne_self (p : Char → Bool) :
    ∀ l : List Char, (∀ c ∈ l, p c = false) → List.dropWhile p l = l := by
  intro l h
  cases l with
  | nil => rfl
  | cons c cs => simp [List.dropWhile, h c (List.mem_cons_self c cs)]

theorem dropWhile_L_replicate (k : Nat) (r : List Char) :
    List.dropWhile (fun c => c == 'L') (List.replicate k 'L' ++ r) =
      List.dropWhile (fun c => c == 'L') r := by
  induction k with
  | zero => rfl
  | succ k ih => simp [List.replicate_succ, List.dropWhile, ih]

theorem rstrip_L_no_L (l : List Char) (h : ∀ c ∈ l, c ≠ 'L') :
    rstrip_L l = l := by
  unfold rstrip_L
  rw [dropWhile_ne_self]
  · exact List.reverse_reverse l
  · intro c hc
    simp only [beq_eq_false_iff_ne, ne_eq]
    exact h c (List.mem_reverse.mp hc)

theorem rstrip_L_append_replicate (l : List Char) (k : Nat)
    (h : ∀ c ∈ l, c ≠ 'L') :
    rstrip_L (l ++ List.replicate k 'L') = l := by
  unfold rstrip_L
  rw [List.reverse_append, List.reverse_replicate, dropWhile_L_replicate,
    dropWhile_ne_self]
  · exact List.reverse_reverse l
  · intro c hc
    simp only [beq_eq_false_iff_ne, ne_eq]
    exact h c (List.mem_reverse.mp hc)

theorem drop_0x_no_marker : ∀ (l : List Char),
    (∀ c ∈ l, c ≠ 'x' ∧ c ≠ 'X') → drop_0x l = l := by
  intro l h
  unfold drop_0x
  match l with
  | [] => rfl
  | [c] => rfl
  | c0 :: c1 :: rest =>
    have := h c1 (by simp)
    simp only
    rw [if_neg]
    rintro ⟨-, h1 | h1⟩ <;> [exact this.1 h1; exact this.2 h1]

theorem parse_hex_core_isSome : ∀ (l : List Char),
    (∀ c ∈ l, (hex_val c).isSome) → ∀ acc, (parse_hex_core acc l).isSome := by
  intro l
  induction l with
  | nil => intro _ acc; simp [parse_hex_core]
  | cons c cs ih =>
    intro h acc
    rcases Option.isSome_iff_exists.mp (h c (by simp)) with ⟨d, hd⟩
    simp only [parse_hex_core, hd]
    exact ih (fun c hc => h c (by simp [hc])) _

/-- Claim C10, counterexample: guid_to_num accepts the two-character string
ff (returning 255) although its length differs from the 40 hex characters
the claim requires it to reject with BadIdentifier; the source performs no
length validation at all. -/
theorem guid_to_num_accepts_short_strings :
    guid_to_num "ff" = some 255 ∧ "ff".length ≠ HEX_NODE_ID_LEN := by
  constructor
  · rfl
  · decide

/-- Claim C10, amended: guid_to_num strips any run of trailing L markers
and parses the remainder as base-16 (int() itself accepting an optional 0x
marker); every string whose normalized remainder is a nonempty sequence of
hex digits parses to its base-16 value regardless of its length, and no
length check or BadIdentifier is involved (unparsable strings fail with
ValueError, modelled as none). -/
theorem guid_to_num_parses_any_hex (l : List Char) (k : Nat)
    (hne : l ≠ []) (hhex : ∀ c ∈ l, (hex_val c).isSome) :
    guid_to_num ⟨l ++ List.replicate k 'L'⟩ = parse_hex_core 0 l ∧
      (parse_hex_core 0 l).isSome := by
  have hnoL : ∀ c ∈ l, c ≠ 'L' := by
    intro c hc heq
    have := hhex c hc
    rw [heq] at this
    simp [hex_val] at this
  have hnoX : ∀ c ∈ l, c ≠ 'x' ∧ c ≠ 'X' := by
    intro c hc
    have := hhex c hc
    constructor <;> rintro rfl <;> simp [hex_val] at this
  constructor
  · unfold guid_to_num py_int_16
    simp only
    rw [rstrip_L_append_replicate l k hnoL, drop_0x_no_marker l hnoX, if_neg hne]
  · exact parse_hex_core_isSome l hhex 0

/-- Witness for guid_to_num_parses_any_hex at the concrete input ffL. -/
theorem guid_to_num_parses_any_hex_witness :
    guid_to_num "ffL" = some 255 := by
  have h := guid_to_num_parses_any_hex ['f', 'f'] 1 (by decide) (by decide)
  have : String.mk (['f', 'f'] ++ List.replicate 1 'L') = "ffL" := by rfl
  rw [this] at h
  rw [h.1]
  rfl

/-! ### Round trip between the numeric and the string identifier form -/

theorem lstrip_0x_cons_ne (c : Char) (rest : List Char)
    (h0 : c ≠ '0') (hx : c ≠ 'x') : lstrip_0x (c :: rest) = c :: rest := by
  unfold lstrip_0x
  rw [if_neg]
  rintro (h | h) <;> [exact h0 h; exact hx h]

theorem lstrip_0x_py_hex (n : Nat) (hn : 0 < n) :
    lstrip_0x (py_hex n) = to_hex_chars n := by
  rcases to_hex_chars_head n hn with ⟨c, rest, heq, h0, hx, _⟩
  unfold py_hex
  rw [heq]
  simp [lstrip_0x, h0, hx]

theorem parse_hex_core_zero_replicate (k : Nat) (l : List Char) :
    parse_hex_core 0 (List.replicate k '0' ++ l) = parse_hex_core 0 l := by
  induction k with
  | zero => rfl
  | succ k ih =>
    rw [List.replicate_succ, List.cons_append]
    show parse_hex_core 0 ('0' :: (List.replicate k '0' ++ l)) = _
    simp only [parse_hex_core, show hex_val '0' = some 0 from rfl]
    simpa using ih

theorem to_hex_chars_clean (n : Nat) :
    ∀ c ∈ to_hex_chars n, c ≠ 'L' ∧ c ≠ 'x' ∧ c ≠ 'X' := by
  intro c hc
  rcases to_hex_chars_mem n c hc with ⟨d, hd, rfl⟩
  have h1 := hex_digit_ne d hd
  exact ⟨h1.1, h1.2.1, h1.2.2⟩

/-- ID_SPACE in base 16: 2 ^ 160 = 16 ^ HEX_NODE_ID_LEN. -/
theorem id_space_eq_pow16 : ID_SPACE = 16 ^ HEX_NODE_ID_LEN := by decide

/-- guid_to_num inverts num_to_guid on the identifier space: parsing the
canonical 40-hex-char rendering of any value below 2 ^ 160 recovers the
value. -/
theorem guid_to_num_num_to_guid (n : Nat) (h : n < ID_SPACE) :
    guid_to_num (num_to_guid n) = some n := by
  rcases Nat.eq_zero_or_pos n with rfl | hn
  · have hhex0 : to_hex_chars 0 = ['0'] := by rw [to_hex_chars]; rfl
    have hdata : (num_to_guid 0).data = List.replicate HEX_NODE_ID_LEN '0' := by
      show rjust_zero HEX_NODE_ID_LEN (rstrip_L (lstrip_0x (py_hex 0))) = _
      unfold py_hex
      rw [hhex0]
      show rjust_zero HEX_NODE_ID_LEN (rstrip_L (lstrip_0x ['0', 'x', '0'])) = _
      rfl
    have hz1 : ∀ c ∈ List.replicate HEX_NODE_ID_LEN '0', c ≠ 'L' := by
      intro c hc
      rcases List.eq_of_mem_replicate hc with rfl
      decide
    have hz2 : ∀ c ∈ List.replicate HEX_NODE_ID_LEN '0', c ≠ 'x' ∧ c ≠ 'X' := by
      intro c hc
      rcases List.eq_of_mem_replicate hc with rfl
      exact ⟨by decide, by decide⟩
    unfold guid_to_num py_int_16
    simp only
    rw [hdata, rstrip_L_no_L _ hz1, drop_0x_no_marker _ hz2, if_neg (by decide)]
    have hp := parse_hex_core_zero_replicate HEX_NODE_ID_LEN []
    rw [List.append_nil] at hp
    rw [hp]
    rfl
  · have hdata : (num_to_guid n).data
        = List.replicate (HEX_NODE_ID_LEN - (to_hex_chars n).length) '0'
            ++ to_hex_chars n := by
      show rjust_zero HEX_NODE_ID_LEN (rstrip_L (lstrip_0x (py_hex n))) = _
      rw [lstrip_0x_py_hex n hn,
        rstrip_L_no_L _ (fun c hc => (to_hex_chars_clean n c hc).1)]
      rfl
    have hclean0 : ∀ c ∈ (num_to_guid n).data, c ≠ 'L' := by
      rw [hdata]
      intro c hc
      rcases List.mem_append.mp hc with hc | hc
      · rcases List.eq_of_mem_replicate hc with rfl; decide
      · exact (to_hex_chars_clean n c hc).1
    have hcleanx : ∀ c ∈ (num_to_guid n).data, c ≠ 'x' ∧ c ≠ 'X' := by
      rw [hdata]
      intro c hc
      rcases List.mem_append.mp hc with hc | hc
      · rcases List.eq_of_mem_replicate hc with rfl; constructor <;> decide
      · exact (to_hex_chars_clean n c hc).2
    have hne : (num_to_guid n).data ≠ [] := by
      rw [hdata]
      rcases to_hex_chars_head n hn with ⟨c, rest, heq, -⟩
      simp [heq]
    unfold guid_to_num py_int_16
    simp only
    rw [rstrip_L_no_L _ hclean0, drop_0x_no_marker _ hcleanx, if_neg hne, hdata,
      parse_hex_core_zero_replicate, parse_to_hex]
    simp

/-! ### Claim C8: KBucket.get_contacts -/

theorem collect_excluding_eq (ex : Nat) :
    ∀ (l : List Contact) (k : Nat), 1 ≤ k →
      collect_excluding ex l k = (l.filter (fun c => c.guid != ex)).take k := by
  intro l
  induction l with
  | nil => intro k _; simp [collect_excluding]
  | cons c rest ih =>
    intro k hk
    by_cases hg : c.guid = ex
    · rw [collect_excluding, if_pos hg, ih k hk, List.filter_cons]
      simp [hg]
    · rw [collect_excluding, if_neg hg, List.filter_cons]
      have hc : (c.guid != ex) = true := by simp [hg]
      rw [if_pos hc]
      by_cases h1 : k ≤ 1
      · have : k = 1 := by omega
        subst this
        simp
      · rw [if_neg h1, ih (k - 1) (by omega)]
        have : k = (k - 1) + 1 := by omega
        rw [this, List.take_succ_cons]
        simp

/-- Claim C8, amended: get_contacts returns the freshest eligible contacts.
With cnt = count clamped to the list length (all of them when count is
negative) and the eligible contacts those whose guid is not excluded, the
result is the last cnt contacts in stored (stalest-first) order when no
guid is excluded, and the cnt freshest eligible contacts listed newest
first when one is; its length is min cnt (number eligible), so count = 0
yields the empty list, count < 0 yields all eligible contacts, and the
exclusion never shrinks the result while another eligible contact is
available. -/
theorem get_contacts_spec (b : KBucket) (count : Int) (ex : Option Nat) :
    b.get_contacts count ex =
      (match ex with
       | none => b.contacts.drop (b.contacts.length -
           (if count < 0 then b.contacts.length
            else min count.toNat b.contacts.length))
       | some g => ((b.contacts.filter (fun c => c.guid != g)).reverse).take
           (if count < 0 then b.contacts.length
            else min count.toNat b.contacts.length)) ∧
    (b.get_contacts count ex).length =
      min (if count < 0 then b.contacts.length
           else min count.toNat b.contacts.length)
          (match ex with
           | none => b.contacts
           | some g => b.contacts.filter (fun c => c.guid != g)).length := by
  unfold KBucket.get_contacts
  by_cases hedge : b.contacts.length = 0 ∨ count = 0
  · rw [if_pos hedge]
    have hcnt0 : (if count < 0 then b.contacts.length
        else min count.toNat b.contacts.length) = 0 ∨ b.contacts.length = 0 := by
      rcases hedge with h | h
      · exact Or.inr h
      · subst h; simp
    rcases hcnt0 with h | h
    · rw [h]
      cases ex <;> simp
    · rcases List.length_eq_zero.mp h with hnil
      rw [hnil]
      cases ex <;> simp
  · rw [if_neg hedge]
    push_neg at hedge
    obtain ⟨hlen, hcnt⟩ := hedge
    have hpos : 1 ≤ (if count < 0 then b.contacts.length
        else min count.toNat b.contacts.length) := by
      split
      · omega
      · rename_i hneg
        have : 1 ≤ count.toNat := by omega
        omega
    cases ex with
    | none =>
      refine ⟨rfl, ?_⟩
      simp only [List.length_drop]
      omega
    | some g =>
      dsimp only
      rw [collect_excluding_eq g _ _ hpos]
      refine ⟨by rw [List.filter_reverse], ?_⟩
      rw [List.filter_reverse, List.length_take]
      simp

/-- Claim C8, counterexample: with two stored contacts and no exclusion,
get_contacts returns them in stored order, with the stalest (head) contact
first — not tail first as the claim states (tail first would put the guid-8
contact at the head). -/
theorem get_contacts_order_counterexample :
    KBucket.get_contacts ⟨0, 0, 100, [⟨"a", 1, 7⟩, ⟨"b", 2, 8⟩]⟩ 2 none
        = [⟨"a", 1, 7⟩, ⟨"b", 2, 8⟩] ∧
      (KBucket.get_contacts ⟨0, 0, 100, [⟨"a", 1, 7⟩, ⟨"b", 2, 8⟩]⟩ 2 none).head?
        ≠ some ⟨"b", 2, 8⟩ := by
  constructor
  · rfl
  · decide

/-! ### Replacement-cache machinery (claims C5 and C9) -/

/-- The guids stored in a contact list. -/
def guids (l : List Contact) : List Nat := l.map Contact.guid

/-- The invariant of the spec: a caching bucket is either full or has an
empty replacement cache. -/
def cache_inv (b : CachingKBucket) : Prop :=
  b.contacts.length = K ∨ b.replacement_cache = []

instance (b : CachingKBucket) : Decidable (cache_inv b) := by
  unfold cache_inv
  infer_instance

theorem remove_first_guid_of_not_mem (g : Nat) :
    ∀ l : List Contact, g ∉ guids l → remove_first_guid g l = l := by
  intro l
  induction l with
  | nil => intro _; rfl
  | cons c rest ih =>
    intro h
    have h1 : c.guid ≠ g := by
      intro hg
      exact h (by rw [← hg]; exact List.mem_cons_self _ _)
    have h2 : g ∉ guids rest := by
      intro hmem
      exact h (List.mem_cons_of_mem _ hmem)
    rw [remove_first_guid, if_neg h1, ih h2]

theorem remove_first_guid_sublist (g : Nat) :
    ∀ l : List Contact, (remove_first_guid g l).Sublist l := by
  intro l
  induction l with
  | nil => exact List.Sublist.refl []
  | cons c rest ih =>
    rw [remove_first_guid]
    split
    · exact List.sublist_cons_self c rest
    · exact List.Sublist.cons₂ c ih

theorem remove_first_guid_length (g : Nat) :
    ∀ l : List Contact, l.length - 1 ≤ (remove_first_guid g l).length ∧
      (remove_first_guid g l).length ≤ l.length := by
  intro l
  induction l with
  | nil => simp [remove_first_guid]
  | cons c rest ih =>
    rw [remove_first_guid]
    split
    · simp
    · simp only [List.length_cons]
      omega

theorem py_partition_eq {α : Type} (p : α → Bool) :
    ∀ l : List α, py_partition p l = (l.filter p, l.filter (fun x => !(p x))) := by
  intro l
  induction l with
  | nil => rfl
  | cons x xs ih =>
    rw [py_partition, ih]
    by_cases hp : p x
    · simp [List.filter_cons, hp]
    · simp only [Bool.not_eq_true] at hp
      simp [List.filter_cons, hp]

theorem fill_loop_spec : ∀ (m : Nat) (b : CachingKBucket),
    m ≤ b.replacement_cache.length →
    b.contacts.length + m ≤ K →
    (guids (b.contacts ++ b.replacement_cache)).Nodup →
    (CachingKBucket.fill_loop m b).contacts.length = b.contacts.length + m ∧
    (CachingKBucket.fill_loop m b).replacement_cache
        = b.replacement_cache.take (b.replacement_cache.length - m) ∧
    ((CachingKBucket.fill_loop m b).contacts
        ++ (CachingKBucket.fill_loop m b).replacement_cache).Perm
      (b.contacts ++ b.replacement_cache) ∧
    (CachingKBucket.fill_loop m b).range_min = b.range_min ∧
    (CachingKBucket.fill_loop m b).range_max = b.range_max ∧
    (CachingKBucket.fill_loop m b).last_accessed = b.last_accessed := by
  intro m
  induction m with
  | zero =>
    intro b _ _ _
    refine ⟨by simp [CachingKBucket.fill_loop], ?_, ?_, rfl, rfl, rfl⟩
    · simp [CachingKBucket.fill_loop, List.take_length]
    · exact List.Perm.refl _
  | succ m ih =>
    intro b hm hK hnodup
    have hne : b.replacement_cache ≠ [] := by
      intro h
      rw [h] at hm
      simp at hm
    have hq := List.dropLast_append_getLast hne
    have hguid : (b.replacement_cache.getLast hne).guid ∉ guids b.contacts := by
      intro hmem
      have hginq : (b.replacement_cache.getLast hne).guid
          ∈ guids b.replacement_cache := by
        unfold guids
        exact List.mem_map_of_mem Contact.guid (List.getLast_mem hne)
      have hnodup2 : (guids b.contacts ++ guids b.replacement_cache).Nodup := by
        unfold guids
        rw [← List.map_append]
        exact hnodup
      exact (List.nodup_append.mp hnodup2).2.2 hmem hginq
    have hrem : remove_first_guid (b.replacement_cache.getLast hne).guid b.contacts
        = b.contacts := remove_first_guid_of_not_mem _ _ hguid
    have hlt : b.contacts.length < K := by omega
    have hstep : b.fill_step = CachingKBucket.mk
        (KBucket.mk b.last_accessed b.range_min b.range_max
          (b.contacts ++ [b.replacement_cache.getLast hne]))
        b.replacement_cache.dropLast := by
      unfold CachingKBucket.fill_step
      rw [List.getLast?_eq_getLast_of_ne_nil hne]
      simp only [CachingKBucket.add_contact, KBucket.add_contact, hrem, if_pos hlt]
    have hperm : ((b.contacts ++ [b.replacement_cache.getLast hne])
          ++ b.replacement_cache.dropLast).Perm
        (b.contacts ++ b.replacement_cache) := by
      rw [List.append_assoc]
      refine List.Perm.append_left _ ?_
      have h1 : ([b.replacement_cache.getLast hne]
            ++ b.replacement_cache.dropLast).Perm
          (b.replacement_cache.dropLast ++ [b.replacement_cache.getLast hne]) :=
        List.perm_append_comm
      rw [hq] at h1
      exact h1
    have hnodup' : (guids ((b.contacts ++ [b.replacement_cache.getLast hne])
        ++ b.replacement_cache.dropLast)).Nodup := by
      have hp := List.Perm.map Contact.guid hperm
      exact List.Perm.nodup hp.symm hnodup
    have hloop : CachingKBucket.fill_loop (m + 1) b
        = CachingKBucket.fill_loop m b.fill_step := rfl
    rw [hloop, hstep]
    have hm' : m ≤ b.replacement_cache.dropLast.length := by
      rw [List.length_dropLast]
      omega
    have hK' : (b.contacts ++ [b.replacement_cache.getLast hne]).length + m ≤ K := by
      simp only [List.length_append, List.length_cons, List.length_nil]
      omega
    obtain ⟨ihlen, ihcache, ihperm, ihmin, ihmax, ihacc⟩ :=
      ih (CachingKBucket.mk
        (KBucket.mk b.last_accessed b.range_min b.range_max
          (b.contacts ++ [b.replacement_cache.getLast hne]))
        b.replacement_cache.dropLast) hm' hK' hnodup'
    dsimp only at ihlen ihcache ihperm ihmin ihmax ihacc
    refine ⟨?_, ?_, ?_, ihmin, ihmax, ihacc⟩
    · rw [ihlen]
      simp only [List.length_append, List.length_cons, List.length_nil]
      omega
    · rw [ihcache]
      rw [List.length_dropLast, List.dropLast_eq_take, List.take_take]
      congr 1
      omega
    · exact ihperm.trans hperm

theorem fill_from_cache_spec (b : CachingKBucket)
    (hlen : b.contacts.length ≤ K)
    (hnodup : (guids (b.contacts ++ b.replacement_cache)).Nodup) :
    cache_inv b.fill_from_cache ∧
    (b.fill_from_cache.contacts ++ b.fill_from_cache.replacement_cache).Perm
      (b.contacts ++ b.replacement_cache) ∧
    b.fill_from_cache.contacts.length
        = min (b.contacts.length + b.replacement_cache.length) K ∧
    (∃ k, b.fill_from_cache.replacement_cache = b.replacement_cache.take k) ∧
    b.fill_from_cache.range_min = b.range_min ∧
    b.fill_from_cache.range_max = b.range_max ∧
    b.fill_from_cache.last_accessed = b.last_accessed := by
  have hm1 : min b.replacement_cache.length (K - b.contacts.length)
      ≤ b.replacement_cache.length := min_le_left _ _
  have hm2 : b.contacts.length
      + min b.replacement_cache.length (K - b.contacts.length) ≤ K := by omega
  obtain ⟨h1, h2, h3, h4, h5, h6⟩ := fill_loop_spec _ b hm1 hm2 hnodup
  have hdef : b.fill_from_cache = CachingKBucket.fill_loop
      (min b.replacement_cache.length (K - b.contacts.length)) b := rfl
  rw [hdef]
  refine ⟨?_, h3, by omega, ⟨_, h2⟩, h4, h5, h6⟩
  by_cases hc : b.replacement_cache.length ≤ K - b.contacts.length
  · right
    rw [h2]
    have : b.replacement_cache.length
        - min b.replacement_cache.length (K - b.contacts.length) = 0 := by omega
    rw [this]
    exact List.take_zero _
  · left
    omega

/-- Evaluation of KBucket.split_kbucket when the range has at least two
values: the assert passes and the contacts are partitioned around the
midpoint, the low bucket keeping the in-range ones. -/
theorem split_kbucket_eq (b : KBucket) (now : Nat)
    (h2 : 2 ≤ b.range_max - b.range_min) :
    b.split_kbucket now = some
      (KBucket.mk b.last_accessed b.range_min
        (b.range_min + (b.range_max - b.range_min) / 2)
        (b.contacts.filter (fun c => decide (b.range_min ≤ c.guid) &&
          decide (c.guid < b.range_min + (b.range_max - b.range_min) / 2))),
       KBucket.mk now (b.range_min + (b.range_max - b.range_min) / 2)
        b.range_max
        (b.contacts.filter (fun c => !(decide (b.range_min ≤ c.guid) &&
          decide (c.guid < b.range_min + (b.range_max - b.range_min) / 2))))) := by
  unfold KBucket.split_kbucket
  rw [if_pos (by omega)]
  simp only [py_partition_eq]
  rfl

/-- KBucket.split_kbucket fails its assert when the range has fewer than
two values. -/
theorem split_kbucket_none (b : KBucket) (now : Nat)
    (h : b.range_max - b.range_min < 2) : b.split_kbucket now = none := by
  unfold KBucket.split_kbucket
  rw [if_neg (by omega)]

/-- Evaluation of CachingKBucket.split_kbucket when the range has at least
two values: base split, cache partition by the narrowed range, and refill
of both buckets. -/
theorem caching_split_eq (b : CachingKBucket) (now : Nat)
    (h2 : 2 ≤ b.range_max - b.range_min) :
    b.split_kbucket now = some
      (CachingKBucket.fill_from_cache
        (CachingKBucket.mk
          (KBucket.mk b.last_accessed b.range_min
            (b.range_min + (b.range_max - b.range_min) / 2)
            (b.contacts.filter (fun c => decide (b.range_min ≤ c.guid) &&
              decide (c.guid < b.range_min + (b.range_max - b.range_min) / 2))))
          (b.replacement_cache.filter (fun c => decide (b.range_min ≤ c.guid) &&
            decide (c.guid < b.range_min + (b.range_max - b.range_min) / 2)))),
       CachingKBucket.fill_from_cache
        (CachingKBucket.mk
          (KBucket.mk now (b.range_min + (b.range_max - b.range_min) / 2)
            b.range_max
            (b.contacts.filter (fun c => !(decide (b.range_min ≤ c.guid) &&
              decide (c.guid < b.range_min + (b.range_max - b.range_min) / 2)))))
          (b.replacement_cache.filter (fun c => !(decide (b.range_min ≤ c.guid) &&
            decide (c.guid < b.range_min + (b.range_max - b.range_min) / 2)))))) := by
  unfold CachingKBucket.split_kbucket
  rw [split_kbucket_eq b.toKBucket now h2]
  simp only [py_partition_eq]
  rfl


/-- Evaluation of CachingKBucket.add_contact: the inherited add removes any
same-guid entry, then appends when below K and raises otherwise; the cache
and the range are untouched. -/
theorem caching_add_contact_eq (b : CachingKBucket) (c : Contact) :
    b.add_contact c =
      (if (remove_first_guid c.guid b.contacts).length < K
       then (⟨⟨b.last_accessed, b.range_min, b.range_max,
          remove_first_guid c.guid b.contacts ++ [c]⟩, b.replacement_cache⟩,
          none)
       else (⟨⟨b.last_accessed, b.range_min, b.range_max,
          remove_first_guid c.guid b.contacts⟩, b.replacement_cache⟩,
          some .full)) := by
  simp only [CachingKBucket.add_contact, KBucket.add_contact]
  split <;> rfl

/-- Evaluation of CachingKBucket.cache_contact: same-guid eviction, append
at the tail, head eviction past CACHE_K; main list and range untouched. -/
theorem cache_contact_eq (b : CachingKBucket) (c : Contact) :
    b.cache_contact c =
      ⟨b.toKBucket,
        if CACHE_K < (remove_first_guid c.guid b.replacement_cache ++ [c]).length
        then (remove_first_guid c.guid b.replacement_cache ++ [c]).tail
        else remove_first_guid c.guid b.replacement_cache ++ [c]⟩ := by
  unfold CachingKBucket.cache_contact
  rfl

/-- Claim C5, counterexample: on a freshly constructed CachingKBucket the
public operation cache_contact settles with 0 contacts in the main list
(not K = 24) and a nonempty replacement cache, so the claimed invariant
fails. -/
theorem cache_contact_breaks_invariant :
    ¬ cache_inv ((CachingKBucket.init 0 0 100).cache_contact ⟨"a", 1, 3⟩) := by
  decide

/-- Claim C5, amended: on a caching bucket holding at most K main contacts
and no repeated guid across the main list and the cache, the operations
that refill from the cache (remove_contact, remove_guid, fill_from_cache,
and split_kbucket for both resulting buckets) settle with either exactly K
main contacts or an empty cache; add_contact preserves that invariant, and
cache_contact preserves it when the main list is full (in the routing table
it is only invoked on full buckets). -/
theorem caching_bucket_invariant (b : CachingKBucket) (c : Contact)
    (g now : Nat) (hlen : b.contacts.length ≤ K)
    (hnodup : (guids (b.contacts ++ b.replacement_cache)).Nodup) :
    cache_inv (b.remove_contact c) ∧
    cache_inv (b.remove_guid g) ∧
    cache_inv b.fill_from_cache ∧
    (∀ bl bh, b.split_kbucket now = some (bl, bh) →
      cache_inv bl ∧ cache_inv bh) ∧
    (cache_inv b → cache_inv (b.add_contact c).1) ∧
    (b.contacts.length = K → cache_inv (b.cache_contact c)) := by
  have hsub : ∀ (cs : List Contact), cs.Sublist b.contacts →
      cs.length ≤ K ∧ (guids (cs ++ b.replacement_cache)).Nodup := by
    intro cs hcs
    constructor
    · exact le_trans (List.Sublist.length_le hcs) hlen
    · refine List.Nodup.sublist ?_ hnodup
      unfold guids
      exact List.Sublist.map _ (List.Sublist.append hcs (List.Sublist.refl _))
  refine ⟨?_, ?_, (fill_from_cache_spec b hlen hnodup).1, ?_, ?_, ?_⟩
  · obtain ⟨h1, h2⟩ := hsub _ (remove_first_guid_sublist c.guid b.contacts)
    exact (fill_from_cache_spec
      ⟨⟨b.last_accessed, b.range_min, b.range_max,
        remove_first_guid c.guid b.contacts⟩, b.replacement_cache⟩ h1 h2).1
  · obtain ⟨h1, h2⟩ := hsub _ (List.filter_sublist b.contacts)
    exact (fill_from_cache_spec
      ⟨⟨b.last_accessed, b.range_min, b.range_max,
        b.contacts.filter (fun x => x.guid != g)⟩, b.replacement_cache⟩ h1 h2).1
  · intro bl bh hsplit
    have h2 : 2 ≤ b.range_max - b.range_min := by
      by_contra hlt
      rw [show b.split_kbucket now = none from ?_] at hsplit
      · exact Option.noConfusion hsplit
      · unfold CachingKBucket.split_kbucket
        rw [split_kbucket_none b.toKBucket now (by omega)]
    rw [caching_split_eq b now h2] at hsplit
    have hside : ∀ (la mn mx : Nat) (p q : Contact → Bool),
        cache_inv (CachingKBucket.fill_from_cache
          ⟨⟨la, mn, mx, b.contacts.filter p⟩, b.replacement_cache.filter q⟩) := by
      intro la mn mx p q
      refine (fill_from_cache_spec _ ?_ ?_).1
      · exact le_trans (List.length_filter_le _ _) hlen
      · refine List.Nodup.sublist ?_ hnodup
        unfold guids
        exact List.Sublist.map _
          (List.Sublist.append (List.filter_sublist _) (List.filter_sublist _))
    injection hsplit with hpair
    injection hpair with hbl hbh
    rw [← hbl, ← hbh]
    exact ⟨hside _ _ _ _ _, hside _ _ _ _ _⟩
  · intro hinv
    rw [caching_add_contact_eq]
    rcases hinv with hK | hcache
    · have hub := (remove_first_guid_length c.guid b.contacts).2
      have hlb := (remove_first_guid_length c.guid b.contacts).1
      split
      · rename_i hlt
        left
        show (remove_first_guid c.guid b.contacts ++ [c]).length = K
        rw [List.length_append]
        simp only [List.length_cons, List.length_nil]
        omega
      · rename_i hlt
        left
        show (remove_first_guid c.guid b.contacts).length = K
        omega
    · split
      · exact Or.inr hcache
      · exact Or.inr hcache
  · intro hK
    rw [cache_contact_eq]
    exact Or.inl hK

/-- Witness for caching_bucket_invariant on a fresh bucket. -/
theorem caching_bucket_invariant_witness :
    cache_inv ((CachingKBucket.init 7 0 ID_SPACE).remove_contact ⟨"a", 1, 5⟩) :=
  (caching_bucket_invariant (CachingKBucket.init 7 0 ID_SPACE) ⟨"a", 1, 5⟩ 5 9
    (by decide) (by decide)).1

/-! ### Claim C9: splitting a bucket -/

theorem perm_append_swap {α : Type} (A B C D : List α) :
    ((A ++ B) ++ (C ++ D)).Perm ((A ++ C) ++ (B ++ D)) := by
  rw [List.append_assoc, List.append_assoc]
  refine List.Perm.append_left A ?_
  rw [← List.append_assoc, ← List.append_assoc]
  exact List.Perm.append_right D (List.perm_append_comm)

/-- Claim C9: with at least two values in the range, split narrows this
bucket to the low half [range_min, mid) with mid = range_min plus half the
range size, hands [mid, range_max) to the returned bucket, and partitions
the contacts by numeric guid (union preserved, each contact in its bucket's
range, relative order preserved by the partition); the caching variant
likewise partitions the replacement cache by the narrowed range in order
(each remaining cache is an order-preserving prefix selection of its side)
and then refills both buckets from their caches (so each side ends full or
with an empty cache, and no contact is lost). -/
theorem split_kbucket_spec (b : CachingKBucket) (now : Nat)
    (h2 : 2 ≤ b.range_max - b.range_min)
    (hin : ∀ c ∈ b.contacts ++ b.replacement_cache,
      b.range_min ≤ c.guid ∧ c.guid < b.range_max)
    (hlen : b.contacts.length ≤ K)
    (hnodup : (guids (b.contacts ++ b.replacement_cache)).Nodup) :
    ∃ bl bh l h,
      b.toKBucket.split_kbucket now = some (bl, bh) ∧
      b.split_kbucket now = some (l, h) ∧
      bl.range_min = b.range_min ∧
      bl.range_max = b.range_min + (b.range_max - b.range_min) / 2 ∧
      bh.range_min = b.range_min + (b.range_max - b.range_min) / 2 ∧
      bh.range_max = b.range_max ∧
      l.range_min = b.range_min ∧
      l.range_max = b.range_min + (b.range_max - b.range_min) / 2 ∧
      h.range_min = b.range_min + (b.range_max - b.range_min) / 2 ∧
      h.range_max = b.range_max ∧
      (bl.contacts ++ bh.contacts).Perm b.contacts ∧
      bl.contacts.Sublist b.contacts ∧ bh.contacts.Sublist b.contacts ∧
      (∀ c ∈ bl.contacts, bl.range_min ≤ c.guid ∧ c.guid < bl.range_max) ∧
      (∀ c ∈ bh.contacts, bh.range_min ≤ c.guid ∧ c.guid < bh.range_max) ∧
      ((l.contacts ++ l.replacement_cache) ++
          (h.contacts ++ h.replacement_cache)).Perm
        (b.contacts ++ b.replacement_cache) ∧
      (∀ c ∈ l.contacts ++ l.replacement_cache,
        l.range_min ≤ c.guid ∧ c.guid < l.range_max) ∧
      (∀ c ∈ h.contacts ++ h.replacement_cache,
        h.range_min ≤ c.guid ∧ c.guid < h.range_max) ∧
      (∃ kl, l.replacement_cache =
        (b.replacement_cache.filter bl.contact_in_range).take kl) ∧
      (∃ kh, h.replacement_cache =
        (b.replacement_cache.filter (fun c => !(bl.contact_in_range c))).take kh) ∧
      cache_inv l ∧ cache_inv h := by
  have hmid1 : b.range_min < b.range_min + (b.range_max - b.range_min) / 2 := by
    omega
  have hmid2 : b.range_min + (b.range_max - b.range_min) / 2 < b.range_max := by
    omega
  refine ⟨_, _, _, _, split_kbucket_eq b.toKBucket now h2,
    caching_split_eq b now h2, rfl, rfl, rfl, rfl, ?_⟩
  have hfl := fill_from_cache_spec
    ⟨⟨b.last_accessed, b.range_min, b.range_min + (b.range_max - b.range_min) / 2,
      b.contacts.filter (fun c => decide (b.range_min ≤ c.guid) &&
        decide (c.guid < b.range_min + (b.range_max - b.range_min) / 2))⟩,
      b.replacement_cache.filter (fun c => decide (b.range_min ≤ c.guid) &&
        decide (c.guid < b.range_min + (b.range_max - b.range_min) / 2))⟩
    (le_trans (List.length_filter_le _ _) hlen)
    (List.Nodup.sublist (by
      unfold guids
      exact List.Sublist.map _
        (List.Sublist.append (List.filter_sublist _) (List.filter_sublist _)))
      hnodup)
  have hfh := fill_from_cache_spec
    ⟨⟨now, b.range_min + (b.range_max - b.range_min) / 2, b.range_max,
      b.contacts.filter (fun c => !(decide (b.range_min ≤ c.guid) &&
        decide (c.guid < b.range_min + (b.range_max - b.range_min) / 2)))⟩,
      b.replacement_cache.filter (fun c => !(decide (b.range_min ≤ c.guid) &&
        decide (c.guid < b.range_min + (b.range_max - b.range_min) / 2)))⟩
    (le_trans (List.length_filter_le _ _) hlen)
    (List.Nodup.sublist (by
      unfold guids
      exact List.Sublist.map _
        (List.Sublist.append (List.filter_sublist _) (List.filter_sublist _)))
      hnodup)
  obtain ⟨hlinv, hlperm, hllen, ⟨kl, hlcache⟩, hlmin, hlmax, -⟩ := hfl
  obtain ⟨hhinv, hhperm, hhlen, ⟨kh, hhcache⟩, hhmin, hhmax, -⟩ := hfh
  dsimp only at hlperm hlcache hlmin hlmax hhperm hhcache hhmin hhmax
  refine ⟨hlmin, hlmax, hhmin, hhmax, ?_, ?_, ?_, ?_, ?_, ?_, ?_, ?_,
    ⟨kl, hlcache⟩, ⟨kh, hhcache⟩, hlinv, hhinv⟩
  · exact List.filter_append_perm _ b.contacts
  · exact List.filter_sublist _
  · exact List.filter_sublist _
  · intro c hc
    have := (List.mem_filter.mp hc).2
    simp only [Bool.and_eq_true, decide_eq_true_eq] at this
    exact this
  · intro c hc
    obtain ⟨hmem, hp⟩ := List.mem_filter.mp hc
    simp only [Bool.not_eq_true', Bool.and_eq_false_iff,
      decide_eq_false_iff_not, not_le, not_lt] at hp
    have hb := hin c (List.mem_append_left _ hmem)
    constructor
    · rcases hp with hp | hp
      · omega
      · exact hp
    · exact hb.2
  · refine List.Perm.trans (List.Perm.append hlperm hhperm) ?_
    refine List.Perm.trans (perm_append_swap _ _ _ _) ?_
    exact List.Perm.append (List.filter_append_perm _ _)
      (List.filter_append_perm _ _)
  · intro c hc
    have hc' := (List.Perm.mem_iff hlperm).mp hc
    rw [hlmin, hlmax]
    rcases List.mem_append.mp hc' with hm | hm
    · have := (List.mem_filter.mp hm).2
      simp only [Bool.and_eq_true, decide_eq_true_eq] at this
      exact this
    · have := (List.mem_filter.mp hm).2
      simp only [Bool.and_eq_true, decide_eq_true_eq] at this
      exact this
  · intro c hc
    have hc' := (List.Perm.mem_iff hhperm).mp hc
    rw [hhmin, hhmax]
    have hsides : ∀ x ∈ b.contacts.filter (fun c => !(decide (b.range_min ≤ c.guid) &&
        decide (c.guid < b.range_min + (b.range_max - b.range_min) / 2)))
          ++ b.replacement_cache.filter (fun c => !(decide (b.range_min ≤ c.guid) &&
        decide (c.guid < b.range_min + (b.range_max - b.range_min) / 2))),
        b.range_min + (b.range_max - b.range_min) / 2 ≤ x.guid ∧
          x.guid < b.range_max := by
      intro x hx
      have hxb : x ∈ b.contacts ++ b.replacement_cache := by
        rcases List.mem_append.mp hx with hm | hm
        · exact List.mem_append_left _ (List.mem_filter.mp hm).1
        · exact List.mem_append_right _ (List.mem_filter.mp hm).1
      have hp : (!(decide (b.range_min ≤ x.guid) &&
          decide (x.guid < b.range_min + (b.range_max - b.range_min) / 2))) = true := by
        rcases List.mem_append.mp hx with hm | hm
        · exact (List.mem_filter.mp hm).2
        · exact (List.mem_filter.mp hm).2
      simp only [Bool.not_eq_true', Bool.and_eq_false_iff,
        decide_eq_false_iff_not, not_le, not_lt] at hp
      have hb := hin x hxb
      constructor
      · rcases hp with hp | hp
        · omega
        · exact hp
      · exact hb.2
    exact hsides c hc'

/-! ### The routing-table partition invariant (claims C1, C2, C3) -/

/-- The bucket list covers the half-open range [lo, hi) contiguously: each
bucket starts where the previous one ended (the first at lo, the last
ending at hi) and owns a nonempty range. -/
def coversRange : Nat → Nat → List CachingKBucket → Bool
  | lo, hi, [] => lo == hi
  | lo, hi, b :: rest =>
    (b.range_min == lo) && decide (lo < b.range_max) &&
      coversRange b.range_max hi rest

/-- The routing-table invariant: a nonempty bucket list covering the whole
identifier space. -/
def rt_inv (rt : RoutingTable) : Prop :=
  coversRange 0 ID_SPACE rt.buckets = true ∧ rt.buckets ≠ []

theorem covers_nil_iff (lo hi : Nat) :
    coversRange lo hi [] = true ↔ lo = hi := by
  simp [coversRange]

theorem covers_cons_iff (lo hi : Nat) (b : CachingKBucket)
    (rest : List CachingKBucket) :
    coversRange lo hi (b :: rest) = true ↔
      b.range_min = lo ∧ lo < b.range_max ∧
        coversRange b.range_max hi rest = true := by
  simp [coversRange, and_assoc]

theorem covers_le (lo hi : Nat) :
    ∀ bs : List CachingKBucket, coversRange lo hi bs = true → lo ≤ hi := by
  intro bs
  induction bs generalizing lo with
  | nil =>
    intro h
    exact le_of_eq ((covers_nil_iff lo hi).mp h)
  | cons b rest ih =>
    intro h
    obtain ⟨-, h2, h3⟩ := (covers_cons_iff lo hi b rest).mp h
    exact le_trans (le_of_lt h2) (ih _ h3)

theorem covers_get (lo hi : Nat) :
    ∀ (bs : List CachingKBucket) (i : Nat) (b : CachingKBucket),
      coversRange lo hi bs = true → bs[i]? = some b →
      lo ≤ b.range_min ∧ b.range_min < b.range_max ∧ b.range_max ≤ hi := by
  intro bs
  induction bs generalizing lo with
  | nil => intro i b _ hb; simp at hb
  | cons hd rest ih =>
    intro i b hc hb
    obtain ⟨h1, h2, h3⟩ := (covers_cons_iff lo hi hd rest).mp hc
    match i with
    | 0 =>
      rw [List.getElem?_cons_zero] at hb
      injection hb with hb
      subst hb
      exact ⟨le_of_eq h1.symm, h1 ▸ h2, covers_le _ _ _ h3⟩
    | i + 1 =>
      rw [List.getElem?_cons_succ] at hb
      obtain ⟨k1, k2, k3⟩ := ih hd.range_max i b h3 hb
      exact ⟨le_trans (le_of_lt h2) k1, k2, k3⟩

theorem covers_ordered (lo hi : Nat) :
    ∀ (bs : List CachingKBucket) (i j : Nat) (bi bj : CachingKBucket),
      coversRange lo hi bs = true → bs[i]? = some bi → bs[j]? = some bj →
      i < j → bi.range_max ≤ bj.range_min := by
  intro bs
  induction bs generalizing lo with
  | nil => intro i j bi bj _ hbi _ _; simp at hbi
  | cons hd rest ih =>
    intro i j bi bj hc hbi hbj hij
    obtain ⟨h1, h2, h3⟩ := (covers_cons_iff lo hi hd rest).mp hc
    match i, j with
    | 0, j + 1 =>
      rw [List.getElem?_cons_zero] at hbi
      injection hbi with hbi
      subst hbi
      rw [List.getElem?_cons_succ] at hbj
      exact (covers_get _ _ rest j bj h3 hbj).1
    | i + 1, j + 1 =>
      rw [List.getElem?_cons_succ] at hbi hbj
      exact ih hd.range_max i j bi bj h3 hbi hbj (by omega)

theorem covers_exists (lo hi : Nat) :
    ∀ (bs : List CachingKBucket) (n : Nat),
      coversRange lo hi bs = true → lo ≤ n → n < hi →
      ∃ (i : Nat) (b : CachingKBucket), bs[i]? = some b ∧
        b.range_min ≤ n ∧ n < b.range_max := by
  intro bs
  induction bs generalizing lo with
  | nil =>
    intro n h hlo hhi
    rw [(covers_nil_iff lo hi).mp h] at hlo
    omega
  | cons hd rest ih =>
    intro n hc hlo hhi
    obtain ⟨h1, h2, h3⟩ := (covers_cons_iff lo hi hd rest).mp hc
    by_cases hcase : n < hd.range_max
    · exact ⟨0, hd, List.getElem?_cons_zero, h1 ▸ hlo, hcase⟩
    · obtain ⟨i, b, hb, hb1, hb2⟩ := ih hd.range_max n h3 (by omega) hhi
      exact ⟨i + 1, b, by rw [List.getElem?_cons_succ]; exact hb, hb1, hb2⟩

theorem covers_unique (lo hi : Nat) (bs : List CachingKBucket)
    (i j : Nat) (bi bj : CachingKBucket) (n : Nat)
    (hc : coversRange lo hi bs = true)
    (hbi : bs[i]? = some bi) (hbj : bs[j]? = some bj)
    (h1 : bi.range_min ≤ n) (h2 : n < bi.range_max)
    (h3 : bj.range_min ≤ n) (h4 : n < bj.range_max) : i = j := by
  rcases lt_trichotomy i j with h | h | h
  · have := covers_ordered lo hi bs i j bi bj hc hbi hbj h
    omega
  · exact h
  · have := covers_ordered lo hi bs j i bj bi hc hbj hbi h
    omega

theorem bisect_finds (bs : List CachingKBucket) (n lo hi : Nat)
    (hc : coversRange lo hi bs = true) :
    ∀ (d low high j : Nat) (b : CachingKBucket),
      high - low ≤ d →
      bs[j]? = some b → b.range_min ≤ n → n < b.range_max →
      low ≤ j → j < high → high ≤ bs.length →
      bisect_buckets bs n low high = some j := by
  intro d
  induction d with
  | zero =>
    intro low high j b hd _ _ _ hlj hjh _
    omega
  | succ d ih =>
    intro low high j b hd hb h1 h2 hlj hjh hhl
    have hlt : low < high := by omega
    have hmidlt : low + (high - low) / 2 < bs.length := by omega
    rw [bisect_buckets]
    rw [dif_pos hlt]
    simp only [List.getElem?_eq_getElem hmidlt]
    by_cases hc1 : n < bs[low + (high - low) / 2].range_min
    · rw [if_pos hc1]
      have hjmid : j < low + (high - low) / 2 := by
        by_contra hge
        push_neg at hge
        rcases Nat.eq_or_lt_of_le hge with heq | hlt2
        · rw [← heq, List.getElem?_eq_getElem hmidlt] at hb
          injection hb with hb
          rw [hb] at hc1
          omega
        · have hord := covers_ordered lo hi bs _ j _ b hc
            (List.getElem?_eq_getElem hmidlt) hb hlt2
          have hget := covers_get lo hi bs _ _ hc
            (List.getElem?_eq_getElem hmidlt)
          omega
      exact ih low (low + (high - low) / 2) j b (by omega) hb h1 h2 hlj hjmid
        (by omega)
    · rw [if_neg hc1]
      push_neg at hc1
      by_cases hc2 : bs[low + (high - low) / 2].range_max ≤ n
      · rw [if_pos hc2]
        have hjmid : low + (high - low) / 2 < j := by
          by_contra hge
          push_neg at hge
          rcases Nat.eq_or_lt_of_le hge with heq | hlt2
          · rw [heq, List.getElem?_eq_getElem hmidlt] at hb
            injection hb with hb
            rw [hb] at hc2
            omega
          · have hord := covers_ordered lo hi bs j _ b _ hc hb
              (List.getElem?_eq_getElem hmidlt) hlt2
            have hget := covers_get lo hi bs _ _ hc
              (List.getElem?_eq_getElem hmidlt)
            omega
        exact ih (low + (high - low) / 2 + 1) high j b (by omega) hb h1 h2
          (by omega) hjh hhl
      · rw [if_neg hc2]
        push_neg at hc2
        have := covers_unique lo hi bs _ j _ b n hc
          (List.getElem?_eq_getElem hmidlt) hb (by omega) (by omega) h1 h2
        rw [this]

/-- Under the partition invariant, the binary search of
RoutingTable._get_kbucket_index finds the unique bucket responsible for any
in-space identifier. -/
theorem get_kbucket_index_spec (rt : RoutingTable) (n : Nat)
    (hinv : rt_inv rt) (hn : n < ID_SPACE) :
    ∃ (i : Nat) (b : CachingKBucket), rt.get_kbucket_index n = some i ∧
      rt.buckets[i]? = some b ∧ b.range_min ≤ n ∧ n < b.range_max := by
  obtain ⟨i, b, hb, h1, h2⟩ :=
    covers_exists 0 ID_SPACE rt.buckets n hinv.1 (Nat.zero_le n) hn
  have hjlen : i < rt.buckets.length := by
    by_contra h
    rw [List.getElem?_eq_none (by omega)] at hb
    exact Option.noConfusion hb
  refine ⟨i, b, ?_, hb, h1, h2⟩
  exact bisect_finds rt.buckets n 0 ID_SPACE hinv.1 rt.buckets.length 0
    rt.buckets.length i b (by omega) hb h1 h2 (Nat.zero_le i) hjlen le_rfl

theorem py_insert_cons {α : Type} (n : Nat) (x y : α) (l : List α) :
    py_insert (n + 1) x (y :: l) = y :: py_insert n x l := rfl

theorem py_insert_ne_nil {α : Type} :
    ∀ (n : Nat) (x : α) (l : List α), py_insert n x l ≠ [] := by
  intro n x l
  match n, l with
  | 0, l => exact List.cons_ne_nil x l
  | n + 1, [] => exact List.cons_ne_nil x []
  | n + 1, y :: l => exact List.cons_ne_nil y _

theorem set_ne_nil {α : Type} (l : List α) (i : Nat) (x : α) (h : l ≠ []) :
    l.set i x ≠ [] := by
  match l, i with
  | [], _ => exact h
  | y :: l, 0 => exact List.cons_ne_nil x l
  | y :: l, i + 1 => exact List.cons_ne_nil y _

theorem covers_set_same (lo hi : Nat) :
    ∀ (bs : List CachingKBucket) (i : Nat) (b b' : CachingKBucket),
      bs[i]? = some b → b'.range_min = b.range_min →
      b'.range_max = b.range_max →
      coversRange lo hi (bs.set i b') = coversRange lo hi bs := by
  intro bs
  induction bs generalizing lo with
  | nil => intro i b b' hb _ _; simp at hb
  | cons hd rest ih =>
    intro i b b' hb hmin hmax
    match i with
    | 0 =>
      rw [List.getElem?_cons_zero] at hb
      injection hb with hb
      subst hb
      show coversRange lo hi (b' :: rest) = coversRange lo hi (hd :: rest)
      simp [coversRange, hmin, hmax]
    | i + 1 =>
      rw [List.getElem?_cons_succ] at hb
      show coversRange lo hi (hd :: rest.set i b') = coversRange lo hi (hd :: rest)
      simp only [coversRange]
      rw [ih hd.range_max i b b' hb hmin hmax]

theorem covers_split_insert (lo hi : Nat) :
    ∀ (bs : List CachingKBucket) (i : Nat) (b bl bh : CachingKBucket),
      coversRange lo hi bs = true →
      bs[i]? = some b →
      bl.range_min = b.range_min → bh.range_min = bl.range_max →
      bh.range_max = b.range_max →
      b.range_min < bl.range_max → bl.range_max < b.range_max →
      coversRange lo hi (py_insert (i + 1) bh (bs.set i bl)) = true := by
  intro bs
  induction bs generalizing lo with
  | nil => intro i b bl bh _ hb; simp at hb
  | cons hd rest ih =>
    intro i b bl bh hc hb hmin hmid hmax h1 h2
    obtain ⟨hc1, hc2, hc3⟩ := (covers_cons_iff lo hi hd rest).mp hc
    match i with
    | 0 =>
      rw [List.getElem?_cons_zero] at hb
      injection hb with hb
      subst hb
      show coversRange lo hi (bl :: bh :: rest) = true
      rw [covers_cons_iff, covers_cons_iff]
      refine ⟨by omega, by omega, by omega, by omega, ?_⟩
      rw [hmax]
      exact hc3
    | i + 1 =>
      rw [List.getElem?_cons_succ] at hb
      show coversRange lo hi (hd :: py_insert (i + 1) bh (rest.set i bl)) = true
      rw [covers_cons_iff]
      exact ⟨hc1, hc2, ih hd.range_max i b bl bh hc3 hb hmin hmid hmax h1 h2⟩

/-- fill_step never changes the range or the timestamp of a bucket. -/
theorem fill_step_ranges (b : CachingKBucket) :
    b.fill_step.range_min = b.range_min ∧
    b.fill_step.range_max = b.range_max ∧
    b.fill_step.last_accessed = b.last_accessed := by
  unfold CachingKBucket.fill_step
  cases h : b.replacement_cache.getLast? with
  | none => exact ⟨rfl, rfl, rfl⟩
  | some c =>
    dsimp only
    rw [caching_add_contact_eq]
    split <;> exact ⟨rfl, rfl, rfl⟩

theorem fill_loop_ranges :
    ∀ (m : Nat) (b : CachingKBucket),
      (CachingKBucket.fill_loop m b).range_min = b.range_min ∧
      (CachingKBucket.fill_loop m b).range_max = b.range_max ∧
      (CachingKBucket.fill_loop m b).last_accessed = b.last_accessed := by
  intro m
  induction m with
  | zero => intro b; exact ⟨rfl, rfl, rfl⟩
  | succ m ih =>
    intro b
    obtain ⟨i1, i2, i3⟩ := ih b.fill_step
    obtain ⟨s1, s2, s3⟩ := fill_step_ranges b
    exact ⟨i1.trans s1, i2.trans s2, i3.trans s3⟩

theorem fill_from_cache_ranges (b : CachingKBucket) :
    b.fill_from_cache.range_min = b.range_min ∧
    b.fill_from_cache.range_max = b.range_max ∧
    b.fill_from_cache.last_accessed = b.last_accessed :=
  fill_loop_ranges _ b

theorem remove_contact_ranges (b : CachingKBucket) (c : Contact) :
    (b.remove_contact c).range_min = b.range_min ∧
    (b.remove_contact c).range_max = b.range_max ∧
    (b.remove_contact c).last_accessed = b.last_accessed :=
  fill_from_cache_ranges _

theorem remove_guid_ranges (b : CachingKBucket) (g : Nat) :
    (b.remove_guid g).range_min = b.range_min ∧
    (b.remove_guid g).range_max = b.range_max ∧
    (b.remove_guid g).last_accessed = b.last_accessed :=
  fill_from_cache_ranges _

theorem add_contact_ranges (b : CachingKBucket) (c : Contact) :
    (b.add_contact c).1.range_min = b.range_min ∧
    (b.add_contact c).1.range_max = b.range_max ∧
    (b.add_contact c).1.last_accessed = b.last_accessed ∧
    (b.add_contact c).1.replacement_cache = b.replacement_cache := by
  rw [caching_add_contact_eq]
  split <;> exact ⟨rfl, rfl, rfl, rfl⟩

theorem cache_contact_ranges (b : CachingKBucket) (c : Contact) :
    (b.cache_contact c).range_min = b.range_min ∧
    (b.cache_contact c).range_max = b.range_max ∧
    (b.cache_contact c).last_accessed = b.last_accessed ∧
    (b.cache_contact c).contacts = b.contacts := by
  rw [cache_contact_eq]
  exact ⟨rfl, rfl, rfl, rfl⟩

/-- RoutingTable.add_contact preserves the partition invariant at any
recursion depth: refreshing a bucket or caching keeps all ranges, and a
split replaces one range by its two halves right next to each other. -/
theorem add_contact_fuel_preserves_inv (now : Nat) :
    ∀ (fuel : Nat) (rt : RoutingTable) (c : Contact),
      rt_inv rt → rt_inv (RoutingTable.add_contact_fuel now fuel rt c).1 := by
  intro fuel
  induction fuel with
  | zero => intro rt c hinv; exact hinv
  | succ fuel ih =>
    intro rt c hinv
    rw [RoutingTable.add_contact_fuel]
    split
    · exact hinv
    · split
      · exact hinv
      · rename_i i hidx
        split
        · exact hinv
        · rename_i b hbkt
          split
          · rename_i b' hadd
            have hr := add_contact_ranges b c
            rw [hadd] at hr
            dsimp only at hr
            refine ⟨?_, set_ne_nil _ _ _ hinv.2⟩
            show coversRange 0 ID_SPACE (rt.buckets.set i b') = true
            rw [covers_set_same 0 ID_SPACE rt.buckets i b b' hbkt hr.1 hr.2.1]
            exact hinv.1
          · rename_i b' e hadd
            have hr := add_contact_ranges b c
            rw [hadd] at hr
            dsimp only at hr
            split
            · split
              · exact hinv
              · rename_i hrange bl bh hsplit
                have h2 : 2 ≤ b'.range_max - b'.range_min := by
                  by_contra hlt
                  push_neg at hlt
                  rw [show b'.split_kbucket now = none from ?_] at hsplit
                  · exact Option.noConfusion hsplit
                  · unfold CachingKBucket.split_kbucket
                    rw [split_kbucket_none b'.toKBucket now (by omega)]
                rw [caching_split_eq b' now h2] at hsplit
                injection hsplit with hpair
                injection hpair with hbl hbh
                obtain ⟨f1, f2, -⟩ := fill_from_cache_ranges
                  ⟨⟨b'.last_accessed, b'.range_min,
                    b'.range_min + (b'.range_max - b'.range_min) / 2,
                    b'.contacts.filter (fun c => decide (b'.range_min ≤ c.guid) &&
                      decide (c.guid < b'.range_min + (b'.range_max - b'.range_min) / 2))⟩,
                    b'.replacement_cache.filter (fun c => decide (b'.range_min ≤ c.guid) &&
                      decide (c.guid < b'.range_min + (b'.range_max - b'.range_min) / 2))⟩
                obtain ⟨g1, g2, -⟩ := fill_from_cache_ranges
                  ⟨⟨now, b'.range_min + (b'.range_max - b'.range_min) / 2,
                    b'.range_max,
                    b'.contacts.filter (fun c => !(decide (b'.range_min ≤ c.guid) &&
                      decide (c.guid < b'.range_min + (b'.range_max - b'.range_min) / 2)))⟩,
                    b'.replacement_cache.filter (fun c => !(decide (b'.range_min ≤ c.guid) &&
                      decide (c.guid < b'.range_min + (b'.range_max - b'.range_min) / 2)))⟩
                rw [hbl] at f1 f2
                rw [hbh] at g1 g2
                dsimp only at f1 f2 g1 g2
                refine ih _ c ⟨?_, py_insert_ne_nil _ _ _⟩
                show coversRange 0 ID_SPACE
                  (py_insert (i + 1) bh (rt.buckets.set i bl)) = true
                refine covers_split_insert 0 ID_SPACE rt.buckets i b bl bh
                  hinv.1 hbkt (by omega) (by omega) (by omega) (by omega)
                  (by omega)
            · rename_i hrange
              have hcr := cache_contact_ranges b' c
              refine ⟨?_, set_ne_nil _ _ _ hinv.2⟩
              show coversRange 0 ID_SPACE
                (rt.buckets.set i (b'.cache_contact c)) = true
              rw [covers_set_same 0 ID_SPACE rt.buckets i b (b'.cache_contact c)
                hbkt (hcr.1.trans hr.1) (hcr.2.1.trans hr.2.1)]
              exact hinv.1

/-- RoutingTable.remove_contact preserves the partition invariant. -/
theorem remove_contact_preserves_inv (rt : RoutingTable) (c : Contact)
    (rt' : RoutingTable) (hinv : rt_inv rt)
    (h : rt.remove_contact c = .ok rt') : rt_inv rt' := by
  unfold RoutingTable.remove_contact at h
  split at h
  · exact Except.noConfusion h
  · rename_i i hidx
    split at h
    · exact Except.noConfusion h
    · rename_i b hbkt
      injection h with h
      subst h
      have hr := remove_contact_ranges { b with toKBucket := b.toKBucket.remove_contact c } c
      refine ⟨?_, set_ne_nil _ _ _ hinv.2⟩
      show coversRange 0 ID_SPACE (rt.buckets.set i (b.remove_contact c)) = true
      rw [covers_set_same 0 ID_SPACE rt.buckets i b (b.remove_contact c) hbkt
        (remove_contact_ranges b c).1 (remove_contact_ranges b c).2.1]
      exact hinv.1

/-- RoutingTable.remove_guid preserves the partition invariant. -/
theorem remove_guid_preserves_inv (rt : RoutingTable) (g : Nat)
    (rt' : RoutingTable) (hinv : rt_inv rt)
    (h : rt.remove_guid g = .ok rt') : rt_inv rt' := by
  unfold RoutingTable.remove_guid at h
  split at h
  · exact Except.noConfusion h
  · rename_i i hidx
    split at h
    · exact Except.noConfusion h
    · rename_i b hbkt
      injection h with h
      subst h
      refine ⟨?_, set_ne_nil _ _ _ hinv.2⟩
      show coversRange 0 ID_SPACE (rt.buckets.set i (b.remove_guid g)) = true
      rw [covers_set_same 0 ID_SPACE rt.buckets i b (b.remove_guid g) hbkt
        (remove_guid_ranges b g).1 (remove_guid_ranges b g).2.1]
      exact hinv.1

/-- The public RoutingTable operations a client can run (claim C1): the
mutators carry the data they act on; the queries (get_contact,
find_close_nodes, get_refresh_list) are read-only in the source and leave
the bucket list untouched. -/
inductive Op where
  | add (c : Contact) (now : Nat)
  | removeContact (c : Contact)
  | removeGuid (g : Nat)
  | get (g : Nat)
  | findClose (g : Nat) (count : Int) (sender : Option Nat)
  | refreshList (force : Bool)

/-- Apply one operation to the table; a raised BadGUIDError leaves the
table unchanged (the source raises before mutating). -/
def RoutingTable.apply_op (rt : RoutingTable) : Op → RoutingTable
  | .add c now => (rt.add_contact c now).1
  | .removeContact c =>
    match rt.remove_contact c with
    | .ok rt' => rt'
    | .error _ => rt
  | .removeGuid g =>
    match rt.remove_guid g with
    | .ok rt' => rt'
    | .error _ => rt
  | .get _ => rt
  | .findClose _ _ _ => rt
  | .refreshList _ => rt

/-- A whole sequence of operations. -/
def RoutingTable.run_ops (rt : RoutingTable) (ops : List Op) : RoutingTable :=
  ops.foldl RoutingTable.apply_op rt

theorem apply_op_preserves_inv (rt : RoutingTable) (op : Op)
    (hinv : rt_inv rt) : rt_inv (rt.apply_op op) := by
  cases op with
  | add c now => exact add_contact_fuel_preserves_inv now ADD_FUEL rt c hinv
  | removeContact c =>
    show rt_inv (match rt.remove_contact c with
      | .ok rt' => rt' | .error _ => rt)
    split
    · rename_i rt' h
      exact remove_contact_preserves_inv rt c rt' hinv h
    · exact hinv
  | removeGuid g =>
    show rt_inv (match rt.remove_guid g with
      | .ok rt' => rt' | .error _ => rt)
    split
    · rename_i rt' h
      exact remove_guid_preserves_inv rt g rt' hinv h
    · exact hinv
  | get g => exact hinv
  | findClose g count sender => exact hinv
  | refreshList force => exact hinv

theorem run_ops_preserves_inv (ops : List Op) :
    ∀ (rt : RoutingTable), rt_inv rt → rt_inv (rt.run_ops ops) := by
  induction ops with
  | nil => intro rt hinv; exact hinv
  | cons op rest ih =>
    intro rt hinv
    exact ih (rt.apply_op op) (apply_op_preserves_inv rt op hinv)

theorem init_inv (own t0 : Nat) : rt_inv (RoutingTable.init own t0) := by
  constructor
  · show coversRange 0 ID_SPACE [CachingKBucket.init t0 0 ID_SPACE] = true
    rw [covers_cons_iff]
    refine ⟨rfl, ?_, (covers_nil_iff _ _).mpr rfl⟩
    show 0 < ID_SPACE
    exact Nat.pos_pow_of_pos _ (by omega)
  · exact List.cons_ne_nil _ _

theorem covers_head (lo hi : Nat) (bs : List CachingKBucket)
    (b0 : CachingKBucket) (hc : coversRange lo hi bs = true)
    (hb : bs.head? = some b0) : b0.range_min = lo := by
  cases bs with
  | nil => exact Option.noConfusion hb
  | cons hd rest =>
    injection hb with hb
    subst hb
    exact ((covers_cons_iff lo hi hd rest).mp hc).1

theorem covers_getLast (lo hi : Nat) :
    ∀ (bs : List CachingKBucket) (bn : CachingKBucket),
      coversRange lo hi bs = true → bs.getLast? = some bn →
      bn.range_max = hi := by
  intro bs
  induction bs generalizing lo with
  | nil => intro bn _ hb; exact Option.noConfusion hb
  | cons hd rest ih =>
    intro bn hc hb
    obtain ⟨h1, h2, h3⟩ := (covers_cons_iff lo hi hd rest).mp hc
    cases rest with
    | nil =>
      injection hb with hb
      subst hb
      exact (covers_nil_iff _ _).mp h3
    | cons hd2 rest2 =>
      rw [List.getLast?_cons_cons] at hb
      exact ih hd.range_max bn h3 hb

theorem covers_adjacent (lo hi : Nat) :
    ∀ (bs : List CachingKBucket) (i : Nat) (bi bj : CachingKBucket),
      coversRange lo hi bs = true → bs[i]? = some bi →
      bs[i + 1]? = some bj → bi.range_max = bj.range_min := by
  intro bs
  induction bs generalizing lo with
  | nil => intro i bi bj _ hb; simp at hb
  | cons hd rest ih =>
    intro i bi bj hc hbi hbj
    obtain ⟨h1, h2, h3⟩ := (covers_cons_iff lo hi hd rest).mp hc
    match i with
    | 0 =>
      rw [List.getElem?_cons_zero] at hbi
      injection hbi with hbi
      subst hbi
      rw [List.getElem?_cons_succ] at hbj
      cases rest with
      | nil => simp at hbj
      | cons hd2 rest2 =>
        rw [List.getElem?_cons_zero] at hbj
        injection hbj with hbj
        subst hbj
        exact (((covers_cons_iff _ hi hd2 rest2).mp h3).1).symm
    | i + 1 =>
      rw [List.getElem?_cons_succ] at hbi hbj
      exact ih hd.range_max i bi bj h3 hbi hbj

/-- Claim C1: starting from a fresh RoutingTable, after any sequence of
public operations (add_contact, remove_contact, remove_guid, get_contact,
find_close_nodes, get_refresh_list) the bucket ranges form a contiguous
non-overlapping cover of the identifier space: the list is nonempty, the
first bucket starts at 0, the last ends at 2 ^ 160, and each bucket ends
exactly where its right neighbour starts. -/
theorem routing_table_partition_invariant (own t0 : Nat) (ops : List Op) :
    ((RoutingTable.init own t0).run_ops ops).buckets ≠ [] ∧
    (∀ b0, ((RoutingTable.init own t0).run_ops ops).buckets.head? = some b0 →
      b0.range_min = 0) ∧
    (∀ bn, ((RoutingTable.init own t0).run_ops ops).buckets.getLast? = some bn →
      bn.range_max = 2 ^ 160) ∧
    (∀ i bi bj, ((RoutingTable.init own t0).run_ops ops).buckets[i]? = some bi →
      ((RoutingTable.init own t0).run_ops ops).buckets[i + 1]? = some bj →
      bi.range_max = bj.range_min) := by
  have hinv := run_ops_preserves_inv ops _ (init_inv own t0)
  refine ⟨hinv.2, ?_, ?_, ?_⟩
  · intro b0 hb
    exact covers_head 0 ID_SPACE _ b0 hinv.1 hb
  · intro bn hb
    exact covers_getLast 0 ID_SPACE _ bn hinv.1 hb
  · intro i bi bj hbi hbj
    exact covers_adjacent 0 ID_SPACE _ i bi bj hinv.1 hbi hbj

theorem surgery_getElem {α : Type} (x y : α) :
    ∀ (bs : List α) (i j : Nat), i < bs.length →
      (py_insert (i + 1) x (bs.set i y))[j]? =
        (if j < i then bs[j]?
         else if j = i then some y
         else if j = i + 1 then some x
         else bs[j - 1]?) := by
  intro bs
  induction bs with
  | nil => intro i j h; simp at h
  | cons hd rest ih =>
    intro i j hi
    match i with
    | 0 =>
      show (py_insert 1 x (y :: rest))[j]? = _
      rw [py_insert_cons]
      show (y :: py_insert 0 x rest)[j]? = _
      match j with
      | 0 => simp
      | 1 =>
        rw [List.getElem?_cons_succ]
        show (x :: rest)[0]? = _
        simp
      | j + 2 =>
        rw [List.getElem?_cons_succ]
        show (x :: rest)[j + 1]? = _
        rw [List.getElem?_cons_succ]
        rw [if_neg (by omega : ¬ j + 2 < 0), if_neg (by omega : ¬ j + 2 = 0),
          if_neg (by omega : ¬ j + 2 = 0 + 1)]
        show rest[j]? = (hd :: rest)[j + 2 - 1]?
        rw [show j + 2 - 1 = j + 1 from rfl, List.getElem?_cons_succ]
    | i + 1 =>
      show (py_insert (i + 2) x (hd :: rest.set i y))[j]? = _
      rw [py_insert_cons]
      match j with
      | 0 =>
        rw [List.getElem?_cons_zero, if_pos (by omega : (0 : Nat) < i + 1),
          List.getElem?_cons_zero]
      | j + 1 =>
        rw [List.getElem?_cons_succ]
        have hlen : i < rest.length := by
          simp only [List.length_cons] at hi
          omega
        rw [ih i j hlen]
        by_cases h1 : j < i
        · rw [if_pos h1, if_pos (by omega : j + 1 < i + 1),
            List.getElem?_cons_succ]
        · rw [if_neg h1, if_neg (by omega : ¬ j + 1 < i + 1)]
          by_cases h2 : j = i
          · rw [if_pos h2, if_pos (by omega : j + 1 = i + 1)]
          · rw [if_neg h2, if_neg (by omega : ¬ j + 1 = i + 1)]
            by_cases h3 : j = i + 1
            · rw [if_pos h3, if_pos (by omega : j + 1 = i + 1 + 1)]
            · rw [if_neg h3, if_neg (by omega : ¬ j + 1 = i + 1 + 1)]
              have hj : j + 1 - 1 = (j - 1) + 1 := by omega
              rw [hj, List.getElem?_cons_succ]

/-- One split-and-insert step of add_contact: when the responsible bucket
raises FullBucketError and is split, the table with the two halves spliced
in still satisfies the partition invariant, and the halves carry the
claimed midpoint geometry. -/
theorem split_step_spec (rt : RoutingTable) (c : Contact) (now : Nat)
    (i : Nat) (b b' : CachingKBucket) (e : FullBucketError)
    (bl bh : CachingKBucket)
    (hinv : rt_inv rt)
    (hbkt : rt.buckets[i]? = some b)
    (hadd : b.add_contact c = (b', some e))
    (hsplit : b'.split_kbucket now = some (bl, bh)) :
    rt_inv { rt with buckets := py_insert (i + 1) bh (rt.buckets.set i bl) } ∧
    bl.range_min = b.range_min ∧
    bl.range_max = b.range_min + (b.range_max - b.range_min) / 2 ∧
    bh.range_min = b.range_min + (b.range_max - b.range_min) / 2 ∧
    bh.range_max = b.range_max ∧
    2 ≤ b.range_max - b.range_min := by
  have hr := add_contact_ranges b c
  rw [hadd] at hr
  dsimp only at hr
  have h2 : 2 ≤ b'.range_max - b'.range_min := by
    by_contra hlt
    push_neg at hlt
    rw [show b'.split_kbucket now = none from ?_] at hsplit
    · exact Option.noConfusion hsplit
    · unfold CachingKBucket.split_kbucket
      rw [split_kbucket_none b'.toKBucket now (by omega)]
  rw [caching_split_eq b' now h2] at hsplit
  injection hsplit with hpair
  injection hpair with hbl hbh
  obtain ⟨f1, f2, -⟩ := fill_from_cache_ranges
    ⟨⟨b'.last_accessed, b'.range_min,
      b'.range_min + (b'.range_max - b'.range_min) / 2,
      b'.contacts.filter (fun c => decide (b'.range_min ≤ c.guid) &&
        decide (c.guid < b'.range_min + (b'.range_max - b'.range_min) / 2))⟩,
      b'.replacement_cache.filter (fun c => decide (b'.range_min ≤ c.guid) &&
        decide (c.guid < b'.range_min + (b'.range_max - b'.range_min) / 2))⟩
  obtain ⟨g1, g2, -⟩ := fill_from_cache_ranges
    ⟨⟨now, b'.range_min + (b'.range_max - b'.range_min) / 2,
      b'.range_max,
      b'.contacts.filter (fun c => !(decide (b'.range_min ≤ c.guid) &&
        decide (c.guid < b'.range_min + (b'.range_max - b'.range_min) / 2)))⟩,
      b'.replacement_cache.filter (fun c => !(decide (b'.range_min ≤ c.guid) &&
        decide (c.guid < b'.range_min + (b'.range_max - b'.range_min) / 2)))⟩
  rw [hbl] at f1 f2
  rw [hbh] at g1 g2
  dsimp only at f1 f2 g1 g2
  refine ⟨⟨?_, py_insert_ne_nil _ _ _⟩, by omega, by omega, by omega, by omega,
    by omega⟩
  show coversRange 0 ID_SPACE (py_insert (i + 1) bh (rt.buckets.set i bl)) = true
  exact covers_split_insert 0 ID_SPACE rt.buckets i b bl bh hinv.1 hbkt
    (by omega) (by omega) (by omega) (by omega) (by omega)

theorem no_bucket_full_helper (now : Nat) :
    ∀ (fuel : Nat) (rt : RoutingTable) (c : Contact),
      (RoutingTable.add_contact_fuel now fuel rt c).2
        ≠ some RTError.bucketFull := by
  intro fuel
  induction fuel with
  | zero => intro rt c; simp [RoutingTable.add_contact_fuel]
  | succ fuel ih =>
    intro rt c
    rw [RoutingTable.add_contact_fuel]
    split
    · simp
    · split
      · simp
      · split
        · simp
        · split
          · simp
          · split
            · split
              · simp
              · exact ih _ c
            · simp

/-- Claim C2: add_contact never lets a FullBucketError escape as a
BucketFull error of the routing table, at any recursion depth; when the
responsible bucket is full (its add raised), the call either splits that
bucket, splices the high half in right after it and retries (own guid in
range), or stores the contact in that bucket's replacement cache (own guid
out of range). -/
theorem bucket_full_never_escapes (now fuel : Nat) (rt : RoutingTable)
    (c : Contact) :
    (RoutingTable.add_contact_fuel now fuel rt c).2
        ≠ some RTError.bucketFull ∧
    (∀ (i : Nat) (b b' : CachingKBucket) (e : FullBucketError),
      c.guid ≠ rt.own_guid →
      rt.get_kbucket_index c.guid = some i →
      rt.buckets[i]? = some b →
      b.add_contact c = (b', some e) →
      (b'.guid_in_range rt.own_guid = true →
        RoutingTable.add_contact_fuel now (fuel + 1) rt c =
          (match b'.split_kbucket now with
           | none => (rt, some RTError.assertFail)
           | some (bl, bh) =>
             RoutingTable.add_contact_fuel now fuel
               { rt with buckets := py_insert (i + 1) bh (rt.buckets.set i bl) }
               c)) ∧
      (b'.guid_in_range rt.own_guid = false →
        RoutingTable.add_contact_fuel now (fuel + 1) rt c =
          ({ rt with buckets := rt.buckets.set i (b'.cache_contact c) },
            none))) := by
  refine ⟨no_bucket_full_helper now fuel rt c, ?_⟩
  intro i b b' e hne hidx hbkt hadd
  rw [RoutingTable.add_contact_fuel]
  rw [if_neg hne, hidx]
  dsimp only
  rw [hbkt]
  dsimp only
  rw [hadd]
  dsimp only
  constructor
  · intro hin
    rw [if_pos hin]
  · intro hout
    rw [if_neg (by rw [hout]; exact Bool.false_ne_true)]

theorem add_contact_terminates_aux (now : Nat) :
    ∀ (fuel k : Nat) (rt : RoutingTable) (c : Contact),
      rt_inv rt → c.guid < ID_SPACE →
      (∀ (i : Nat) (b : CachingKBucket),
        rt.get_kbucket_index c.guid = some i → rt.buckets[i]? = some b →
        b.range_max - b.range_min ≤ 2 ^ k) →
      k < fuel →
      (RoutingTable.add_contact_fuel now fuel rt c).2
        ≠ some RTError.outOfFuel := by
  intro fuel
  induction fuel with
  | zero => intro k rt c _ _ _ hk; omega
  | succ fuel ih =>
    intro k rt c hinv hguid hsize hk
    rw [RoutingTable.add_contact_fuel]
    by_cases hself : c.guid = rt.own_guid
    · rw [if_pos hself]
      simp
    · rw [if_neg hself]
      cases hidx : rt.get_kbucket_index c.guid with
      | none => simp
      | some i =>
        dsimp only
        cases hbkt : rt.buckets[i]? with
        | none => simp
        | some b =>
          dsimp only
          rcases hadd : b.add_contact c with ⟨b', eopt⟩
          cases eopt with
          | none =>
            dsimp only
            simp
          | some e =>
            dsimp only
            by_cases hrange : b'.guid_in_range rt.own_guid = true
            · rw [if_pos hrange]
              cases hsplit : b'.split_kbucket now with
              | none => simp
              | some pr =>
                obtain ⟨bl, bh⟩ := pr
                dsimp only
                obtain ⟨hinv', hg1, hg2, hg3, hg4, hg5⟩ :=
                  split_step_spec rt c now i b b' e bl bh hinv hbkt hadd hsplit
                obtain ⟨i0, b0, hidx0, hbkt0, hc1, hc2⟩ :=
                  get_kbucket_index_spec rt c.guid hinv hguid
                have hieq : i = i0 := by
                  rw [hidx] at hidx0
                  exact Option.some.inj hidx0
                subst hieq
                rw [hbkt] at hbkt0
                have hbeq : b = b0 := Option.some.inj hbkt0
                subst hbeq
                have hs := hsize i b hidx hbkt
                have hkpos : 1 ≤ k := by
                  by_contra hk0
                  push_neg at hk0
                  interval_cases k
                  simp at hs
                  omega
                have hpow : 2 ^ k = 2 * 2 ^ (k - 1) := by
                  have hkk : k = (k - 1) + 1 := by omega
                  rw [hkk, pow_succ, Nat.add_sub_cancel]
                  ring
                refine ih (k - 1) _ c hinv' hguid ?_ (by omega)
                intro i2 b2 hidx2 hbkt2
                obtain ⟨i3, b3, hidx3, hbkt3, hc3, hc4⟩ :=
                  get_kbucket_index_spec _ c.guid hinv' hguid
                have hieq2 : i2 = i3 := by
                  rw [hidx2] at hidx3
                  exact Option.some.inj hidx3
                subst hieq2
                rw [hbkt2] at hbkt3
                have hbeq2 : b2 = b3 := Option.some.inj hbkt3
                subst hbeq2
                have hi : i < rt.buckets.length := by
                  by_contra hh
                  push_neg at hh
                  rw [List.getElem?_eq_none hh] at hbkt
                  exact Option.noConfusion hbkt
                have hsurg := surgery_getElem bh bl rt.buckets i i2 hi
                rw [show ({ rt with
                    buckets := py_insert (i + 1) bh (rt.buckets.set i bl) }
                      : RoutingTable).buckets
                  = py_insert (i + 1) bh (rt.buckets.set i bl) from rfl,
                  hsurg] at hbkt2
                by_cases hq1 : i2 < i
                · rw [if_pos hq1] at hbkt2
                  have := covers_unique 0 ID_SPACE rt.buckets i2 i b2 b c.guid
                    hinv.1 hbkt2 hbkt hc3 hc4 hc1 hc2
                  omega
                · rw [if_neg hq1] at hbkt2
                  by_cases hq2 : i2 = i
                  · rw [if_pos hq2] at hbkt2
                    have hb2 : b2 = bl := Option.some.inj hbkt2.symm
                    subst hb2
                    omega
                  · rw [if_neg hq2] at hbkt2
                    by_cases hq3 : i2 = i + 1
                    · rw [if_pos hq3] at hbkt2
                      have hb2 : b2 = bh := Option.some.inj hbkt2.symm
                      subst hb2
                      omega
                    · rw [if_neg hq3] at hbkt2
                      have := covers_unique 0 ID_SPACE rt.buckets (i2 - 1) i
                        b2 b c.guid hinv.1 hbkt2 hbkt hc3 hc4 hc1 hc2
                      omega
            · rw [if_neg hrange]
              simp

/-- Claim C3: for a well-formed contact guid (inside the identifier space)
distinct from the node's own guid, and a table satisfying the partition
invariant, the split-and-retry recursion of add_contact terminates: a
recursion depth of BIT_NODE_ID_LEN + 1 is never exhausted, because every
recursive call halves the responsible bucket's range. -/
theorem add_contact_terminates (now fuel : Nat) (rt : RoutingTable)
    (c : Contact) (hinv : rt_inv rt) (hguid : c.guid < ID_SPACE)
    (hne : c.guid ≠ rt.own_guid) (hfuel : BIT_NODE_ID_LEN + 1 ≤ fuel) :
    (RoutingTable.add_contact_fuel now fuel rt c).2
      ≠ some RTError.outOfFuel := by
  refine add_contact_terminates_aux now fuel BIT_NODE_ID_LEN rt c hinv hguid
    ?_ (by omega)
  intro i b hidx hbkt
  obtain ⟨h1, h2, h3⟩ := covers_get 0 ID_SPACE rt.buckets i b hinv.1 hbkt
  show b.range_max - b.range_min ≤ ID_SPACE
  omega

/-- Witness for add_contact_terminates on a fresh table. -/
theorem add_contact_terminates_witness :
    (RoutingTable.add_contact_fuel 3 161 (RoutingTable.init 1 0)
      ⟨"a", 1, 9⟩).2 ≠ some RTError.outOfFuel :=
  add_contact_terminates 3 161 (RoutingTable.init 1 0) ⟨"a", 1, 9⟩
    (init_inv 1 0) (by decide) (by decide) (by decide)

/-- Claim C6 (code_bug evidence): the source never calls KBucket.touch —
neither RoutingTable.add_contact nor RoutingTable.get_contact updates
last_accessed.  Concretely: on a table created at time 100, adding a fresh
contact at time 200 succeeds yet the serviced bucket still carries
last_accessed = 100 (the claim requires 200); get_contact merely returns
the lookup result (its body reads state only, there is no touch call to
model). -/
theorem add_contact_does_not_touch :
    ((RoutingTable.init 1 100).add_contact ⟨"1.2.3.4", 5, 42⟩ 200).2 = none ∧
    ((RoutingTable.init 1 100).add_contact ⟨"1.2.3.4", 5, 42⟩ 200).1.buckets.map
        (fun b => b.last_accessed) = [100] ∧
    (RoutingTable.init 1 100).get_contact 42 = .ok none := by
  obtain ⟨i, b, hidx, hbkt, -, -⟩ :=
    get_kbucket_index_spec (RoutingTable.init 1 100) 42 (init_inv 1 100)
      (by decide)
  have hi0 : i = 0 := by
    have hlt : i < 1 := by
      by_contra h
      push_neg at h
      rw [List.getElem?_eq_none
        (show (RoutingTable.init 1 100).buckets.length ≤ i from h)] at hbkt
      exact Option.noConfusion hbkt
    omega
  subst hi0
  have hfuel : ADD_FUEL = 160 + 1 := rfl
  have hcalc : (RoutingTable.init 1 100).add_contact ⟨"1.2.3.4", 5, 42⟩ 200 =
      ({ RoutingTable.init 1 100 with
          buckets := (RoutingTable.init 1 100).buckets.set 0
            ⟨⟨100, 0, ID_SPACE, [⟨"1.2.3.4", 5, 42⟩]⟩, []⟩ }, none) := by
    unfold RoutingTable.add_contact
    rw [hfuel, RoutingTable.add_contact_fuel, if_neg (by decide), hidx]
    dsimp only
    rw [show (RoutingTable.init 1 100).buckets[0]?
      = some (CachingKBucket.init 100 0 ID_SPACE) from rfl]
    dsimp only
    rw [caching_add_contact_eq]
    rw [if_pos (by decide)]
    rfl
  refine ⟨by rw [hcalc], by rw [hcalc]; rfl, ?_⟩
  unfold RoutingTable.get_contact
  rw [hidx]
  dsimp only
  rw [show (RoutingTable.init 1 100).buckets[0]?
    = some (CachingKBucket.init 100 0 ID_SPACE) from rfl]
  rfl

/-- Claim C7 (with is_stale modelled from the spec, as the method is
missing from dht/kbucket.py): get_refresh_list produces exactly one
identifier per selected bucket — every bucket under force, otherwise
exactly the stale ones, in order — and each identifier is the canonical
rendering of a number drawn from the corresponding bucket's half-open
range, so parsing it lands inside that range. -/
theorem get_refresh_list_spec (rt : RoutingTable) (rnd : Nat → Nat → Nat)
    (now : Nat) (force : Bool)
    (hinv : rt_inv rt)
    (hrnd : ∀ lo hi, lo < hi → lo ≤ rnd lo hi ∧ rnd lo hi < hi) :
    rt.get_refresh_list rnd now force =
      (if force then rt.buckets
       else rt.buckets.filter (fun b => b.is_stale now)).map
        (fun b => num_to_guid (rnd b.range_min b.range_max)) ∧
    (rt.get_refresh_list rnd now force).length =
      (if force then rt.buckets
       else rt.buckets.filter (fun b => b.is_stale now)).length ∧
    (∀ (i : Nat) (b : CachingKBucket) (g : String),
      (if force then rt.buckets
       else rt.buckets.filter (fun b => b.is_stale now))[i]? = some b →
      (rt.get_refresh_list rnd now force)[i]? = some g →
      ∃ v, guid_to_num g = some v ∧ b.range_min ≤ v ∧ v < b.range_max) := by
  have hmap : rt.get_refresh_list rnd now force =
      (if force then rt.buckets
       else rt.buckets.filter (fun b => b.is_stale now)).map
        (fun b => num_to_guid (rnd b.range_min b.range_max)) := rfl
  refine ⟨hmap, by rw [hmap, List.length_map], ?_⟩
  intro i b g hsel hres
  rw [hmap, List.getElem?_map, hsel] at hres
  have hg : g = num_to_guid (rnd b.range_min b.range_max) :=
    (Option.some.inj hres).symm
  have hmem : b ∈ rt.buckets := by
    have hmem0 : b ∈ (if force then rt.buckets
        else rt.buckets.filter (fun b => b.is_stale now)) := by
      have : ∃ h : i < (if force then rt.buckets
          else rt.buckets.filter (fun b => b.is_stale now)).length,
          (if force then rt.buckets
            else rt.buckets.filter (fun b => b.is_stale now))[i] = b := by
        rcases List.getElem?_eq_some.mp hsel with ⟨h, heq⟩
        exact ⟨h, heq⟩
      rcases this with ⟨h, heq⟩
      rw [← heq]
      exact List.getElem_mem h
    split at hmem0
    · exact hmem0
    · exact (List.mem_filter.mp hmem0).1
  obtain ⟨j, hj⟩ := List.mem_iff_getElem?.mp hmem
  obtain ⟨k1, k2, k3⟩ := covers_get 0 ID_SPACE rt.buckets j b hinv.1 hj
  obtain ⟨r1, r2⟩ := hrnd b.range_min b.range_max k2
  refine ⟨rnd b.range_min b.range_max, ?_, r1, r2⟩
  rw [hg]
  exact guid_to_num_num_to_guid _ (by omega)

/-- Witness for get_refresh_list_spec on a fresh table with forced
refresh. -/
theorem get_refresh_list_spec_witness :
    ((RoutingTable.init 1 0).get_refresh_list (fun lo _ => lo) 5 true).length
      = 1 := by
  have h := (get_refresh_list_spec (RoutingTable.init 1 0) (fun lo _ => lo) 5
    true (init_inv 1 0) (fun lo hi hlt => ⟨le_refl lo, hlt⟩)).2.1
  exact h.trans rfl

/-! ### Claim C4: find_close_nodes -/

/-- The indices contributed at one offset: the left neighbour when it is
nonnegative, then the right neighbour when it is below the list length. -/
def side_indices (idx len o : Nat) : List Nat :=
  (if o ≤ idx then [idx - o] else []) ++
    (if idx + o < len then [idx + o] else [])

/-- The visit order the claim states: the responsible index, then for
offsets 1, 2, ... the index minus the offset and the index plus the
offset, skipping out-of-bounds sides. -/
def visit_order (idx len : Nat) : List Nat :=
  idx :: (List.range' 1 (max idx (len - idx))).flatMap (side_indices idx len)

theorem flatMap_sides_nil (idx len : Nat) :
    ∀ (m s : Nat), idx < s → len ≤ idx + s →
      (List.range' s m).flatMap (side_indices idx len) = [] := by
  intro m
  induction m with
  | zero => intro s _ _; rfl
  | succ m ih =>
    intro s h1 h2
    rw [List.range'_succ, List.flatMap_cons, ih (s + 1) (by omega) (by omega)]
    unfold side_indices
    rw [if_neg (by omega), if_neg (by omega)]
    rfl

theorem gen_more_eq (idx len : Nat) : ∀ off : Nat,
    gen_more idx len off =
      (List.range' (off + 1) (max idx (len - idx) - off)).flatMap
        (side_indices idx len) := by
  suffices H : ∀ (d off : Nat), idx + 1 + len - off ≤ d →
      gen_more idx len off =
        (List.range' (off + 1) (max idx (len - idx) - off)).flatMap
          (side_indices idx len) by
    exact fun off => H (idx + 1 + len - off) off le_rfl
  intro d
  induction d with
  | zero =>
    intro off hof
    rw [gen_more]
    rw [dif_neg (by omega)]
    rw [show max idx (len - idx) - off = 0 from by omega]
    rfl
  | succ d ih =>
    intro off hof
    rw [gen_more]
    split
    · rename_i hprod
      have hoffB : off < max idx (len - idx) := by
        rcases hprod with h | h <;> omega
      rw [show max idx (len - idx) - off
        = (max idx (len - idx) - (off + 1)) + 1 from by omega]
      rw [List.range'_succ, List.flatMap_cons, ih (off + 1) (by omega)]
      unfold side_indices
      rw [List.append_assoc]
    · rename_i hprod
      push_neg at hprod
      rw [flatMap_sides_nil idx len _ (off + 1) (by omega) (by omega)]

theorem gen_indices_eq_visit_order (idx len : Nat) :
    gen_indices idx len = visit_order idx len := by
  unfold gen_indices visit_order
  rw [gen_more_eq]
  norm_num

theorem mem_visit_order (idx len : Nat) (hidx : idx < len) (j : Nat) :
    j ∈ visit_order idx len ↔ j < len := by
  unfold visit_order
  constructor
  · intro hj
    rcases List.mem_cons.mp hj with rfl | hj
    · exact hidx
    · rcases List.mem_flatMap.mp hj with ⟨o, ho, hside⟩
      unfold side_indices at hside
      rcases List.mem_append.mp hside with hs | hs
      · split at hs
        · rename_i hguard
          rcases List.mem_singleton.mp hs with rfl
          omega
        · simp at hs
      · split at hs
        · rename_i hguard
          rcases List.mem_singleton.mp hs with rfl
          omega
        · simp at hs
  · intro hj
    rcases lt_trichotomy j idx with h | h | h
    · refine List.mem_cons_of_mem _ (List.mem_flatMap.mpr ⟨idx - j, ?_, ?_⟩)
      · rw [List.mem_range']
        exact ⟨idx - j - 1, by omega, by omega⟩
      · unfold side_indices
        refine List.mem_append.mpr (Or.inl ?_)
        rw [if_pos (by omega : idx - j ≤ idx)]
        rw [show idx - (idx - j) = j from by omega]
        exact List.mem_singleton.mpr rfl
    · exact List.mem_cons.mpr (Or.inl h)
    · refine List.mem_cons_of_mem _ (List.mem_flatMap.mpr ⟨j - idx, ?_, ?_⟩)
      · rw [List.mem_range']
        exact ⟨j - idx - 1, by omega, by omega⟩
      · unfold side_indices
        refine List.mem_append.mpr (Or.inr ?_)
        rw [if_pos (by omega : idx + (j - idx) < len)]
        rw [show idx + (j - idx) = j from by omega]
        exact List.mem_singleton.mpr rfl

theorem visit_order_nodup (idx len : Nat) : (visit_order idx len).Nodup := by
  unfold visit_order
  rw [List.nodup_cons]
  constructor
  · intro hmem
    rcases List.mem_flatMap.mp hmem with ⟨o, ho, hside⟩
    rcases List.mem_range'.mp ho with ⟨i, hi, rfl⟩
    unfold side_indices at hside
    rcases List.mem_append.mp hside with hs | hs
    · split at hs
      · rename_i hguard
        have := List.mem_singleton.mp hs
        omega
      · simp at hs
    · split at hs
      · rename_i hguard
        have := List.mem_singleton.mp hs
        omega
      · simp at hs
  · rw [List.nodup_flatMap]
    constructor
    · intro o ho
      rcases List.mem_range'.mp ho with ⟨i, hi, rfl⟩
      unfold side_indices
      split
      · split
        · rename_i h1 h2
          simp only [List.cons_append, List.nil_append, List.nodup_cons,
            List.mem_singleton, List.nodup_singleton, and_true]
          exact ⟨by omega, by simp, List.nodup_nil⟩
        · simp
      · split
        · simp
        · simp
    · rw [List.pairwise_iff_getElem]
      intro i j hi hj hij
      rw [List.getElem_range' i hi, List.getElem_range' j hj]
      intro a ha ha'
      unfold side_indices at ha ha'
      rcases List.mem_append.mp ha with hs | hs <;>
        rcases List.mem_append.mp ha' with hs' | hs'
      · split at hs
        · split at hs'
          · rename_i g1 g2
            have e1 := List.mem_singleton.mp hs
            have e2 := List.mem_singleton.mp hs'
            omega
          · simp at hs'
        · simp at hs
      · split at hs
        · split at hs'
          · rename_i g1 g2
            have e1 := List.mem_singleton.mp hs
            have e2 := List.mem_singleton.mp hs'
            omega
          · simp at hs'
        · simp at hs
      · split at hs
        · split at hs'
          · rename_i g1 g2
            have e1 := List.mem_singleton.mp hs
            have e2 := List.mem_singleton.mp hs'
            omega
          · simp at hs'
        · simp at hs
      · split at hs
        · split at hs'
          · rename_i g1 g2
            have e1 := List.mem_singleton.mp hs
            have e2 := List.mem_singleton.mp hs'
            omega
          · simp at hs'
        · simp at hs

theorem visit_order_perm_range (idx len : Nat) (hidx : idx < len) :
    (visit_order idx len).Perm (List.range len) := by
  rw [List.perm_ext_iff_of_nodup (visit_order_nodup idx len)
    (List.nodup_range len)]
  intro a
  rw [mem_visit_order idx len hidx, List.mem_range]

/-- A contact may be returned by find_close_nodes with the given sender
guid: either no sender guid was given, or the contact carries another guid. -/
def sender_ok (sender : Option Nat) (c : Contact) : Prop :=
  ∀ g, sender = some g → c.guid ≠ g

/-- How many contacts of a bucket are eligible for a find_close_nodes call
with the given sender guid. -/
def bucket_elig (sender : Option Nat) (b : CachingKBucket) : Nat :=
  match sender with
  | none => b.contacts.length
  | some g => (b.contacts.filter (fun c => c.guid != g)).length

/-- The total number of contacts of the table eligible for a
find_close_nodes call with the given sender guid. -/
def total_eligible (rt : RoutingTable) (sender : Option Nat) : Nat :=
  (rt.buckets.map (bucket_elig sender)).sum

theorem get_contacts_len_elig (b : CachingKBucket) (count : Int)
    (sender : Option Nat) (hc : 0 ≤ count) :
    (KBucket.get_contacts b.toKBucket count sender).length =
      min count.toNat (bucket_elig sender b) := by
  have h := (get_contacts_spec b.toKBucket count sender).2
  rw [h, if_neg (by omega : ¬ count < 0)]
  cases sender with
  | none =>
    simp only [bucket_elig]
    omega
  | some gs =>
    simp only [bucket_elig]
    have hfle := List.length_filter_le (fun c => c.guid != gs)
      b.toKBucket.contacts
    omega

theorem get_contacts_all_sender_ok (b : CachingKBucket) (count : Int)
    (sender : Option Nat) :
    ∀ c ∈ KBucket.get_contacts b.toKBucket count sender, sender_ok sender c := by
  intro c hmem gs hgs
  cases sender with
  | none => exact Option.noConfusion hgs
  | some g0 =>
    have hg0 : g0 = gs := Option.some.inj hgs
    subst hg0
    have h := (get_contacts_spec b.toKBucket count (some g0)).1
    rw [h] at hmem
    have h2 := List.mem_reverse.mp (List.mem_of_mem_take hmem)
    have h3 := List.of_mem_filter h2
    simpa using h3

theorem sum_getD_range (f : CachingKBucket → Nat) :
    ∀ L : List CachingKBucket,
      ((List.range L.length).map
        (fun i => ((L[i]?).map f).getD 0)).sum = (L.map f).sum := by
  intro L
  induction L with
  | nil => simp
  | cons a L ih =>
    rw [List.length_cons, List.range_succ_eq_map]
    rw [List.map_cons, List.sum_cons, List.map_map]
    have hcomp : ((fun i => (((a :: L)[i]?).map f).getD 0) ∘ Nat.succ)
        = fun i => ((L[i]?).map f).getD 0 := by
      funext i
      simp [Function.comp, List.getElem?_cons_succ]
    rw [hcomp, ih]
    simp

theorem fcn_loop_spec (rt : RoutingTable) (count : Int) (sender : Option Nat) :
    ∀ (l : List Nat) (acc : List Contact),
      (acc.length : Int) ≤ count →
      (∀ i ∈ l, i < rt.buckets.length) →
      ((fcn_loop rt count sender l acc).length : Int) ≤ count ∧
      (((fcn_loop rt count sender l acc).length : Int) < count →
        (fcn_loop rt count sender l acc).length =
          acc.length +
            (l.map (fun i =>
              ((rt.buckets[i]?).map (bucket_elig sender)).getD 0)).sum) ∧
      ((∀ c ∈ acc, sender_ok sender c) →
        ∀ c ∈ fcn_loop rt count sender l acc, sender_ok sender c) := by
  intro l
  induction l with
  | nil =>
    intro acc hacc _
    simp only [fcn_loop]
    refine ⟨hacc, ?_, ?_⟩
    · intro _
      simp
    · exact fun h => h
  | cons i rest ih =>
    intro acc hacc hbound
    have hilen : i < rt.buckets.length := hbound i (List.mem_cons_self i rest)
    have hb : rt.buckets[i]? = some rt.buckets[i] := List.getElem?_eq_getElem hilen
    set b := rt.buckets[i] with hbdef
    have hglen : (KBucket.get_contacts b.toKBucket
        (count - (acc.length : Int)) sender).length =
        min (count - (acc.length : Int)).toNat (bucket_elig sender b) :=
      get_contacts_len_elig b _ sender (by omega)
    have hgok := get_contacts_all_sender_ok b (count - (acc.length : Int)) sender
    simp only [fcn_loop, hb]
    split
    · rename_i hcond
      simp only [List.length_append] at hcond ⊢
      refine ⟨by omega, by omega, ?_⟩
      intro hok c hc
      rcases List.mem_append.mp hc with h | h
      · exact hok c h
      · exact hgok c h
    · rename_i hcond
      simp only [List.length_append] at hcond
      obtain ⟨ih1, ih2, ih3⟩ := ih
        (acc ++ KBucket.get_contacts b.toKBucket (count - (acc.length : Int)) sender)
        (by simp only [List.length_append]; omega)
        (fun j hj => hbound j (List.mem_cons_of_mem _ hj))
      refine ⟨ih1, ?_, ?_⟩
      · intro hlt
        rw [ih2 hlt]
        simp only [List.length_append, List.map_cons, List.sum_cons, hb,
          Option.map_some', Option.getD_some]
        have hfull : (KBucket.get_contacts b.toKBucket
            (count - (acc.length : Int)) sender).length = bucket_elig sender b := by
          omega
        omega
      · intro hok
        refine ih3 ?_
        intro c hc
        rcases List.mem_append.mp hc with h | h
        · exact hok c h
        · exact hgok c h

/-- C4: for every target guid in range, every count ≥ 0 and every optional
sender guid, find_close_nodes succeeds, visits the buckets in the order
i0, i0-1, i0+1, i0-2, i0+2, ... (skipping out-of-bounds sides), returns at
most count contacts none of which carries the sender guid, and returns
fewer than count contacts only when the whole table holds fewer than count
eligible contacts (the result then holds every eligible contact count). -/
theorem find_close_nodes_spec (rt : RoutingTable) (g : Nat) (count : Int)
    (sender : Option Nat) (hinv : rt_inv rt) (hg : g < ID_SPACE)
    (hc : 0 ≤ count) :
    ∃ i0 res, rt.get_kbucket_index g = some i0 ∧
      rt.find_close_nodes g count sender = .ok res ∧
      gen_indices i0 rt.buckets.length = visit_order i0 rt.buckets.length ∧
      (res.length : Int) ≤ count ∧
      (∀ c ∈ res, sender_ok sender c) ∧
      ((res.length : Int) < count →
        res.length = total_eligible rt sender ∧
          (total_eligible rt sender : Int) < count) := by
  obtain ⟨i0, b0, hidx, hb0, _, _⟩ := get_kbucket_index_spec rt g hinv hg
  have hi0len : i0 < rt.buckets.length := by
    by_contra h
    rw [List.getElem?_eq_none (by omega)] at hb0
    exact Option.noConfusion hb0
  have hfc : rt.find_close_nodes g count sender =
      .ok (fcn_loop rt count sender (gen_indices i0 rt.buckets.length) []) := by
    unfold RoutingTable.find_close_nodes
    rw [hidx]
  have hbound : ∀ i ∈ gen_indices i0 rt.buckets.length, i < rt.buckets.length := by
    intro i hi
    rw [gen_indices_eq_visit_order] at hi
    exact (mem_visit_order i0 rt.buckets.length hi0len i).mp hi
  obtain ⟨hlen, hshort, hok⟩ := fcn_loop_spec rt count sender
    (gen_indices i0 rt.buckets.length) [] (by simpa using hc) hbound
  refine ⟨i0, _, hidx, hfc, gen_indices_eq_visit_order _ _, hlen,
    hok (by simp), ?_⟩
  intro hlt
  have heq := hshort hlt
  have hperm2 : (gen_indices i0 rt.buckets.length).Perm
      (List.range rt.buckets.length) := by
    rw [gen_indices_eq_visit_order]
    exact visit_order_perm_range i0 rt.buckets.length hi0len
  have hsum := (hperm2.map (fun j =>
    (((rt.buckets[j]?).map (bucket_elig sender)).getD 0))).sum_eq
  have htot : ((gen_indices i0 rt.buckets.length).map (fun j =>
      (((rt.buckets[j]?).map (bucket_elig sender)).getD 0))).sum =
      total_eligible rt sender := by
    rw [hsum, sum_getD_range (bucket_elig sender) rt.buckets]
    rfl
  constructor
  · rw [heq, htot]
    simp
  · rw [heq, htot] at hlt
    simpa using hlt

theorem find_close_nodes_spec_witness :
    ∃ i0 res, (RoutingTable.init 1 0).get_kbucket_index 5 = some i0 ∧
      (RoutingTable.init 1 0).find_close_nodes 5 3 none = .ok res ∧
      gen_indices i0 (RoutingTable.init 1 0).buckets.length =
        visit_order i0 (RoutingTable.init 1 0).buckets.length ∧
      (res.length : Int) ≤ 3 ∧
      (∀ c ∈ res, sender_ok none c) ∧
      ((res.length : Int) < 3 →
        res.length = total_eligible (RoutingTable.init 1 0) none ∧
          (total_eligible (RoutingTable.init 1 0) none : Int) < 3) :=
  find_close_nodes_spec (RoutingTable.init 1 0) 5 3 none (init_inv 1 0)
    (by decide) (by decide)

theorem split_kbucket_spec_witness :
    ((CachingKBucket.mk (KBucket.mk 0 0 8 [⟨"a", 1, 2⟩, ⟨"b", 1, 6⟩])
      []).split_kbucket 5).isSome = true := by
  obtain ⟨bl, bh, l, h, -, hsplit, -⟩ :=
    split_kbucket_spec
      (CachingKBucket.mk (KBucket.mk 0 0 8 [⟨"a", 1, 2⟩, ⟨"b", 1, 6⟩]) []) 5
      (by decide) (by decide) (by decide) (by decide)
  rw [hsplit]
  rfl

end OB
